import Mathlib

/-!
# Verification of the Vulkan wrapper layer (cbrl/VulkanTest)

A shallow embedding of the queue-selection, capability-to-queue mapping,
swapchain (re)build, buffer upload, memory-type search, surface-format
selection and pre-creation validation logic of the repository, together
with proofs (and disproofs) of the specified properties.

Flag bitsets (`vk::QueueFlags`, `vk::MemoryPropertyFlags`,
`vk::BufferUsageFlags`, ...) are modelled as natural numbers interpreted
bitwise; machine-integer wraparound is made explicit with `% 2 ^ 32` /
`% 2 ^ 64` where the source relies on it.  Fallible operations return
`Option`.
-/

set_option maxHeartbeats 1000000

namespace VkWrapper

/-! ## Memory types (src/vk_utils.h `findMemoryType`, src/vulkan_wrapper/buffer.h) -/

/-- One entry of `vk::PhysicalDeviceMemoryProperties::memoryTypes`. -/
structure MemoryType where
  propertyFlags : Nat
deriving DecidableEq, Repr

instance : Inhabited MemoryType := ⟨⟨0⟩⟩

/-- Helper for `findMemoryType`: walk the memory types in order, shifting the
type bits right once per step exactly as the source loop does, and return the
first index whose bit is set and whose property flags contain the mask. -/
def findMemoryTypeGo (requirementsMask : Nat) : List MemoryType → Nat → Nat → Option Nat
  | [], _, _ => none
  | t :: rest, bits, i =>
    if bits &&& 1 = 1 ∧ t.propertyFlags &&& requirementsMask = requirementsMask then some i
    else findMemoryTypeGo requirementsMask rest (bits >>> 1) (i + 1)

/-- Embeds `findMemoryType` of src/vk_utils.h (and the identical
`buffer::find_memory_type` of src/vulkan_wrapper/buffer.h): scan the memory
types in index order, take the first index `i` such that bit `i` of
`typeBits` is set and the type's property flags contain `requirementsMask`.
The source's final `assert(typeIndex != ~0)` is modelled by returning `none`
when the scan finds nothing. -/
def findMemoryType (types : List MemoryType) (typeBits requirementsMask : Nat) : Option Nat :=
  findMemoryTypeGo requirementsMask types typeBits 0

/-! ## Surface formats (src/vulkan_wrapper/util.h `select_srgb_surface_format`) -/

/-- The `vk::Format` values this development distinguishes; every other
enumerant is collapsed into `otherFormat` with its numeric code. -/
inductive VkFormat where
  | b8g8r8a8Srgb
  | r8g8b8a8Srgb
  | b8g8r8Srgb
  | r8g8b8Srgb
  | otherFormat (code : Nat)
deriving DecidableEq, Repr

/-- `vk::ColorSpaceKHR`, distinguishing only the SRGB-nonlinear value. -/
inductive VkColorSpace where
  | srgbNonlinear
  | otherColorSpace (code : Nat)
deriving DecidableEq, Repr

/-- `vk::SurfaceFormatKHR`. -/
structure SurfaceFormatKHR where
  format : VkFormat
  colorSpace : VkColorSpace
deriving DecidableEq, Repr

/-- The fixed priority list `desired_formats` of `select_srgb_surface_format`. -/
def desired_srgb_formats : List VkFormat :=
  [.b8g8r8a8Srgb, .r8g8b8a8Srgb, .b8g8r8Srgb, .r8g8b8Srgb]

/-- Helper: try each desired format in priority order, returning the first
entry of `formats` that has the desired format in the SRGB colorspace. -/
def selectSrgbGo (formats : List SurfaceFormatKHR) : List VkFormat → Option SurfaceFormatKHR
  | [] => none
  | f :: rest =>
    match formats.find? (fun sf => decide (sf.format = f ∧ sf.colorSpace = .srgbNonlinear)) with
    | some sf => some sf
    | none => selectSrgbGo formats rest

/-- Embeds `vkw::util::select_srgb_surface_format` of src/vulkan_wrapper/util.h. -/
def select_srgb_surface_format (formats : List SurfaceFormatKHR) : Option SurfaceFormatKHR :=
  selectSrgbGo formats desired_srgb_formats

/-! ## Instance layer gathering (src/vulkan_wrapper/instance.h) -/

/-- `vk::LayerProperties`, reduced to the layer name the source compares. -/
structure LayerProperties where
  layerName : String
deriving DecidableEq, Repr

/-- The layer name the source asks for when `debug_config.validation` is set. -/
def validation_layer_name : String := "VK_LAYER_KHRONOS_validation"

/-- Embeds the validation-layer branch of `instance::validate_instance_info`
(src/vulkan_wrapper/instance.h:166-178).  `has_validation_layer` compares the
requested layers with `strcmp(...) == 0`; `validation_layer_exists`
translates the source's bare `strcmp(lp.layerName, "VK_LAYER_KHRONOS_validation")`
used as a boolean, which is true exactly when the names differ.  Returns the
updated requested-layer list. -/
def add_validation_layer (validation : Bool) (layers : List String)
    (layer_properties : List LayerProperties) : List String :=
  if validation then
    let has_validation_layer := layers.any (fun l => decide (l = validation_layer_name))
    let validation_layer_exists :=
      layer_properties.any (fun lp => decide (lp.layerName ≠ validation_layer_name))
    if !has_validation_layer && validation_layer_exists then layers ++ [validation_layer_name]
    else layers
  else layers

/-- Modelled from the spec: `debug::validate_layers` is declared in debug.h,
which is not among the sources; per the spec every remaining requested layer
must exist in the reported properties or construction fails with
`unsupported_capability`.  Returns `true` when validation passes. -/
def validate_layers (layers : List String) (layer_properties : List LayerProperties) : Bool :=
  layers.all (fun l => layer_properties.any (fun lp => decide (lp.layerName = l)))

/-! ## Queue data model (src/vulkan_wrapper/queue.h) -/

/-- `vk::QueueFamilyProperties`, reduced to the fields the sources consult. -/
structure QueueFamilyProperties where
  queueFlags : Nat
  queueCount : Nat
deriving DecidableEq, Repr

instance : Inhabited QueueFamilyProperties := ⟨⟨0, 0⟩⟩

/-- `vkw::queue_info`: one requested queue, carrying its priority.  Priorities
are modelled as rationals, which is faithful for the order comparisons the
sources perform. -/
structure queue_info where
  priority : ℚ
deriving DecidableEq

instance : Inhabited queue_info := ⟨⟨1⟩⟩

/-- `vkw::queue_family_info` (equivalently `QueueFamilyInfo` of
src/vulkan_wrapper/logical_device.h): a request record for one family. -/
structure queue_family_info where
  family_idx : Nat
  flags : Nat
  queues : List queue_info
deriving DecidableEq

instance : Inhabited queue_family_info := ⟨⟨0, 0, []⟩⟩

/-! ## Pre-creation queue validation (src/vulkan_wrapper/queue.h `debug::validate_queues`) -/

/-- One diagnostic printed by `debug::validate_queues` before it decides
whether to throw. -/
inductive QueueValidationReport where
  | noProperties
  | familyIndexOutOfRange (family_idx : Nat)
  | emptyQueueList (family_idx : Nat)
  | tooManyQueues (family_idx : Nat)
  | unsupportedFlags (family_idx : Nat)
  | invalidPriority (family_idx queue_idx : Nat)
deriving DecidableEq, Repr

/-- The reports produced for one `queue_family_info` by the loop body of
`debug::validate_queues`.  The source reads
`queue_family_properties[family.family_idx]` before performing the range
check; that out-of-bounds read is undefined behavior, modelled here by
returning `none`, so the subsequent range-check report can never be emitted
for an out-of-range index. -/
def family_reports (props : List QueueFamilyProperties) (fam : queue_family_info) :
    Option (List QueueValidationReport) :=
  match props[fam.family_idx]? with
  | none => none
  | some property =>
    some ((if props.length ≤ fam.family_idx then [.familyIndexOutOfRange fam.family_idx] else [])
      ++ (if fam.queues = [] then [.emptyQueueList fam.family_idx] else [])
      ++ (if property.queueCount < fam.queues.length then [.tooManyQueues fam.family_idx] else [])
      ++ (if property.queueFlags &&& fam.flags ≠ fam.flags then [.unsupportedFlags fam.family_idx] else [])
      ++ (List.range fam.queues.length).filterMap (fun qi =>
            if (fam.queues.getD qi default).priority < 0 ∨ 1 < (fam.queues.getD qi default).priority
            then some (.invalidPriority fam.family_idx qi) else none))

/-- Embeds `debug::validate_queues` (src/vulkan_wrapper/queue.h:141-190).
An empty property list throws immediately; otherwise the reports of all
entries are accumulated and the function throws at the end exactly when at
least one report was produced.  The result is the accumulated report list
(`none` when the source runs into the out-of-bounds indexing); the source
throws iff the list is non-empty. -/
def validate_queues (queue_family_info_list : List queue_family_info)
    (props : List QueueFamilyProperties) : Option (List QueueValidationReport) :=
  if props = [] then some [.noProperties]
  else queue_family_info_list.foldl
    (fun acc fam => do pure ((← acc) ++ (← family_reports props fam))) (some [])

/-- The four per-entry conditions the spec lists as the reasons validation
throws (empty queue list, too many queues, unsupported flags, out-of-range
priority). -/
def bad_family (props : List QueueFamilyProperties) (fam : queue_family_info) : Prop :=
  fam.queues = []
  ∨ (props.getD fam.family_idx default).queueCount < fam.queues.length
  ∨ (props.getD fam.family_idx default).queueFlags &&& fam.flags ≠ fam.flags
  ∨ ∃ q ∈ fam.queues, q.priority < 0 ∨ 1 < q.priority

instance (props fam) : Decidable (bad_family props fam) := by
  unfold bad_family; infer_instance

/-! ## Queue-family search (src/vulkan_wrapper/queue.h `vkw::util`) -/

/-- `find_queue_family_index_weak`: first family whose flags contain all the
requested flags. -/
def find_queue_family_index_weak (props : List QueueFamilyProperties) (flags : Nat) : Option Nat :=
  props.findIdx? (fun p => decide (p.queueFlags &&& flags = flags))

/-- `find_queue_family_index_strong`: first family whose flags equal the
requested flags exactly. -/
def find_queue_family_index_strong (props : List QueueFamilyProperties) (flags : Nat) : Option Nat :=
  props.findIdx? (fun p => decide (p.queueFlags = flags))

/-! ## Queue request building (src/vulkan_wrapper/logical_device.h `LogicalDeviceInfo`) -/

/-- Wrap a natural number to `uint32_t`. -/
def u32wrap (n : Nat) : Nat := n % 2 ^ 32

/-- Embeds `LogicalDeviceInfo::addQueues(uint32_t family_idx, float priority,
uint32_t count)`: append `count` queues to the first existing entry with
this family index, or create a new entry carrying the driver-reported flags
of the family. -/
def addQueuesIdx (props : List QueueFamilyProperties) (list : List queue_family_info)
    (family_idx : Nat) (priority : ℚ) (count : Nat) : List queue_family_info :=
  match list.findIdx? (fun f => decide (f.family_idx = family_idx)) with
  | some i =>
    let f := list.getD i default
    list.set i { f with queues := f.queues ++ List.replicate count ⟨priority⟩ }
  | none =>
    list ++ [⟨family_idx, (props.getD family_idx default).queueFlags,
             List.replicate count ⟨priority⟩⟩]

/-- The `available_props` computation of `addQueues(vk::QueueFlags, ...)`:
copy the driver-reported properties and subtract, with `uint32_t`
wraparound, the number of already-requested queues of the first matching
entry from each family's queue count. -/
def available_props (props : List QueueFamilyProperties) (list : List queue_family_info) :
    List QueueFamilyProperties :=
  (List.range props.length).map (fun i =>
    let p := props.getD i default
    match list.find? (fun f => decide (f.family_idx = i)) with
    | some f => { p with queueCount := (p.queueCount + (2 ^ 32 - u32wrap f.queues.length)) % 2 ^ 32 }
    | none => p)

/-- Embeds `LogicalDeviceInfo::addQueues(vk::QueueFlags flags, float priority,
uint32_t count)`: compute the available properties, try the first family with
exactly the requested flags and, if it has at least `count` available queues,
add there; otherwise try the first family whose flags contain the request in
the same way; otherwise fail.  The source returns only a success boolean;
the embedding additionally exposes the chosen family index and the updated
request list. -/
def addQueuesFlags (props : List QueueFamilyProperties) (list : List queue_family_info)
    (flags : Nat) (priority : ℚ) (count : Nat) : Option (Nat × List queue_family_info) :=
  match (find_queue_family_index_strong (available_props props list) flags).bind
      (fun i => if count ≤ ((available_props props list).getD i default).queueCount
        then some i else none) with
  | some i => some (i, addQueuesIdx props list i priority count)
  | none =>
    match (find_queue_family_index_weak (available_props props list) flags).bind
        (fun i => if count ≤ ((available_props props list).getD i default).queueCount
          then some i else none) with
    | some i => some (i, addQueuesIdx props list i priority count)
    | none => none

/-! ## Capability-to-queue map (src/vulkan_wrapper/logical_device.h constructor,
src/vulkan_wrapper/util.h `separate_flags`) -/

/-- A materialized queue: `vkw::queue` carries its family index and its index
within the family. -/
structure Queue where
  family_idx : Nat
  queue_idx : Nat
deriving DecidableEq, Repr

instance : Inhabited Queue := ⟨⟨0, 0⟩⟩

/-- Embeds `vkw::util::separate_flags` for `vk::QueueFlags` (mask type
`uint32_t`): the list of single-bit values set in `flags`, in ascending bit
order, scanning bits `0` to `31`. -/
def separate_flags (flags : Nat) : List Nat :=
  (List.range 32).filterMap (fun bit => if flags.testBit bit then some (2 ^ bit) else none)

/-- The capability map, keyed by `vk::QueueFlags::MaskType`;
`std::unordered_map::operator[]` default-constructs missing entries, so the
map is a total function defaulting to the empty list. -/
def QMap : Type := Nat → List Queue

/-- Append queues to one key of the map (`queue_map[k].push_back(...)`). -/
def mapAppend (m : QMap) (k : Nat) (qs : List Queue) : QMap :=
  fun j => if j = k then m j ++ qs else m j

/-- The queues materialized for one family, in queue-index order. -/
def famQueues (fam : queue_family_info) : List Queue :=
  (List.range fam.queues.length).map (fun qi => ⟨fam.family_idx, qi⟩)

/-- First constructor pass (logical_device.h:136-149): for each family in
request order, append its queues to the map entry of the family's exact
flags. -/
def pass1 (list : List queue_family_info) : QMap :=
  list.foldl (fun m fam => mapAppend m fam.flags (famQueues fam)) (fun _ => [])

/-- `LogicalDevice::getQueue(flags, i)` looks up `queue_map[flags].at(i)`;
the out-of-range exception is modelled by the default queue (the proofs show
every reachable access is in bounds). -/
def getQueueIn (m : QMap) (flags : Nat) (i : Nat) : Queue :=
  (m flags).getD i default

/-- The mask built from one `permutation` value of the second constructor
pass: OR together the separated single-bit flags selected by the set bits of
`p`. -/
def permMask (sep : List Nat) (p : Nat) : Nat :=
  (List.range sep.length).foldl (fun mask i => if p.testBit i then mask ||| sep.getD i 0 else mask) 0

/-- The number of permutations the second pass iterates:
`(1 << separated_flags.size()) - 2` evaluated with `size_t` wraparound (for
an empty separated list the source underflows to `2 ^ 64 - 1`). -/
def permCount (k : Nat) : Nat := (2 ^ 64 + 2 ^ k - 2) % 2 ^ 64

/-- The permutation values in iteration order: `permCount k` down to `1`. -/
def permList (k : Nat) : List Nat :=
  ((List.range (permCount k)).map (· + 1)).reverse

/-- The masks the second pass visits for one family, in iteration order. -/
def subsetMasks (flags : Nat) : List Nat :=
  (permList (separate_flags flags).length).map (permMask (separate_flags flags))

/-- The inner queue loop of the second pass for one mask: for each queue
index of the family, fetch `getQueue(flags, queue_idx)` from the current map
and push it onto `map[mask]`. -/
def pushSubsetQueues (m : QMap) (flags mask : Nat) (n : Nat) : QMap :=
  (List.range n).foldl (fun m' qi => mapAppend m' mask [getQueueIn m' flags qi]) m

/-- Second constructor pass body for one family (logical_device.h:151-175). -/
def pass2Step (m : QMap) (fam : queue_family_info) : QMap :=
  (subsetMasks fam.flags).foldl
    (fun m' mask => pushSubsetQueues m' fam.flags mask fam.queues.length) m

/-- The capability-to-queue map built by the `LogicalDevice` constructor:
pass 1 over the whole request list, then pass 2 over the whole request
list. -/
def buildQueueMap (list : List queue_family_info) : QMap :=
  list.foldl pass2Step (pass1 list)

/-- `LogicalDevice::getQueues(flags)`. -/
def getQueues (list : List queue_family_info) (flags : Nat) : List Queue :=
  buildQueueMap list flags

/-- `LogicalDevice::getQueue(flags, queue_idx)`. -/
def getQueue (list : List queue_family_info) (flags : Nat) (queue_idx : Nat) : Queue :=
  (getQueues list flags).getD queue_idx default

/-! ## Swapchain (src/vulkan_wrapper/swapchain.h) -/

/-- `vk::Extent2D`. -/
structure Extent2D where
  width : Nat
  height : Nat
deriving DecidableEq, Repr

/-- `vk::PresentModeKHR`, distinguishing the modes the source handles. -/
inductive PresentModeKHR where
  | fifo
  | mailbox
  | immediate
  | otherMode (code : Nat)
deriving DecidableEq, Repr

/-- `vk::SharingMode`. -/
inductive SharingMode where
  | exclusive
  | concurrent
deriving DecidableEq, Repr

/-- `vk::SurfaceCapabilitiesKHR`, reduced to the fields the source consults.
Transform and composite-alpha bitsets use the Vulkan bit values
(identity transform = 1; opaque/pre-multiplied/post-multiplied/inherit
composite alpha = 1/2/4/8). -/
structure SurfaceCapabilitiesKHR where
  minImageCount : Nat
  currentExtent : Extent2D
  minImageExtent : Extent2D
  maxImageExtent : Extent2D
  supportedTransforms : Nat
  currentTransform : Nat
  supportedCompositeAlpha : Nat
deriving DecidableEq, Repr

/-- The `vk::SwapchainCreateInfoKHR` assembled by `swapchain::create_impl`. -/
structure SwapchainCreateInfoKHR where
  minImageCount : Nat
  format : VkFormat
  colorSpace : VkColorSpace
  extent : Extent2D
  imageArrayLayers : Nat
  usage : Nat
  imageSharingMode : SharingMode
  queueFamilyIndices : List Nat
  preTransform : Nat
  compositeAlpha : Nat
  presentMode : PresentModeKHR
  clipped : Bool
  oldSwapchain : Bool
deriving DecidableEq, Repr

/-- `vk::ImageViewType`, distinguishing the 2D type the source uses. -/
inductive ImageViewType where
  | e2D
  | otherViewType (code : Nat)
deriving DecidableEq, Repr

/-- A created image view: the image it targets, its type, format and
subresource range (aspect mask uses the Vulkan color-aspect bit 1). -/
structure ImageView where
  image : Nat
  viewType : ImageViewType
  format : VkFormat
  aspectMask : Nat
  baseMipLevel : Nat
  levelCount : Nat
  baseArrayLayer : Nat
  layerCount : Nat
deriving DecidableEq, Repr

/-- `swapchain::select_present_mode`: first of mailbox, immediate that the
surface supports, else FIFO. -/
def select_present_mode (modes : List PresentModeKHR) : PresentModeKHR :=
  if PresentModeKHR.mailbox ∈ modes then .mailbox
  else if PresentModeKHR.immediate ∈ modes then .immediate
  else .fifo

/-- `swapchain::select_swapchain_extent`: when the surface reports an
undefined current extent (`width == u32::MAX`) clamp the requested size to
the supported range, otherwise use the surface's current extent. -/
def select_swapchain_extent (caps : SurfaceCapabilitiesKHR) (requested : Extent2D) : Extent2D :=
  if caps.currentExtent.width = 2 ^ 32 - 1 then
    ⟨min (max requested.width caps.minImageExtent.width) caps.maxImageExtent.width,
     min (max requested.height caps.minImageExtent.height) caps.maxImageExtent.height⟩
  else caps.currentExtent

/-- `swapchain::select_transform`: identity if supported, else the current
transform. -/
def select_transform (caps : SurfaceCapabilitiesKHR) : Nat :=
  if caps.supportedTransforms &&& 1 ≠ 0 then 1 else caps.currentTransform

/-- `swapchain::select_composite_alpha`: pre-multiplied, post-multiplied,
inherit, opaque, in that preference order. -/
def select_composite_alpha (caps : SurfaceCapabilitiesKHR) : Nat :=
  if caps.supportedCompositeAlpha &&& 2 ≠ 0 then 2
  else if caps.supportedCompositeAlpha &&& 4 ≠ 0 then 4
  else if caps.supportedCompositeAlpha &&& 8 ≠ 0 then 8
  else 1

/-- The `vkw::swapchain` object state: the parameters captured by `create`
plus the created driver swapchain (modelled by its create info), the fetched
image handles and the built views. -/
structure swapchain where
  format : SurfaceFormatKHR
  usage : Nat
  size : Extent2D
  vsync : Bool
  shared_queues : List Nat
  vk_swapchain : Option SwapchainCreateInfoKHR
  images : List Nat
  image_views : List ImageView
deriving DecidableEq, Repr

/-- `swapchain::create`: capture the parameters on a fresh object. -/
def swapchain.create (format : SurfaceFormatKHR) (usage : Nat) (size : Extent2D)
    (vsync : Bool) (shared_queues : List Nat) : swapchain :=
  ⟨format, usage, size, vsync, shared_queues, none, [], []⟩

/-- Modelled from the spec: the driver is external; creating a swapchain and
fetching its images (`vk::raii::SwapchainKHR::getImages`) yields the
negotiated minimum image count of image handles. -/
def getImagesModel (info : SwapchainCreateInfoKHR) : List Nat :=
  List.range info.minImageCount

/-- The 2D color-aspect view built per swap image (swapchain.h:81-96). -/
def mkSwapImageView (image : Nat) (format : VkFormat) : ImageView :=
  ⟨image, .e2D, format, 1, 0, 1, 0, 1⟩

/-- Embeds `swapchain::create_impl` (swapchain.h:34-97): negotiate present
mode, extent, transform and composite alpha; assemble the create info
(exclusive sharing unless `shared_queues` is non-empty, in which case
concurrent with that family list); create the driver swapchain passing the
previous one as `oldSwapchain`; copy the fetched images onto the image list
with `std::back_inserter` and then emplace one view per element of the
(grown) image list onto the view list.  Neither container is cleared
first. -/
def swapchain.create_impl (s : swapchain) (caps : SurfaceCapabilitiesKHR)
    (present_modes : List PresentModeKHR) : swapchain :=
  let present_mode := if s.vsync then .fifo else select_present_mode present_modes
  let swapchain_extent := select_swapchain_extent caps s.size
  let pre_transform := select_transform caps
  let composite_alpha := select_composite_alpha caps
  let base_info : SwapchainCreateInfoKHR :=
    ⟨caps.minImageCount, s.format.format, s.format.colorSpace, swapchain_extent, 1, s.usage,
     .exclusive, [], pre_transform, composite_alpha, present_mode, true, s.vk_swapchain.isSome⟩
  let info :=
    if s.shared_queues = [] then base_info
    else { base_info with imageSharingMode := .concurrent, queueFamilyIndices := s.shared_queues }
  let swap_images := getImagesModel info
  let images := s.images ++ swap_images
  let image_views := s.image_views ++ images.map (fun img => mkSwapImageView img s.format.format)
  { s with vk_swapchain := some info, images := images, image_views := image_views }

/-- Embeds `swapchain::resize` (swapchain.h:99-105): wait for the device to
go idle (no observable effect in this model), store the new size and run the
build again. -/
def swapchain.resize (s : swapchain) (caps : SurfaceCapabilitiesKHR)
    (present_modes : List PresentModeKHR) (new_size : Extent2D) : swapchain :=
  swapchain.create_impl { s with size := new_size } caps present_modes

/-! ## Typed buffer and staged upload (src/vulkan_wrapper/buffer.h) -/

/-- Memory property flag bits (`vk::MemoryPropertyFlagBits`): device-local,
host-visible, host-coherent. -/
def deviceLocalBit : Nat := 1

/-- `vk::MemoryPropertyFlagBits::eHostVisible`. -/
def hostVisibleBit : Nat := 2

/-- `vk::MemoryPropertyFlagBits::eHostCoherent`. -/
def hostCoherentBit : Nat := 4

/-- `vk::BufferUsageFlagBits::eTransferSrc`. -/
def transferSrcBit : Nat := 1

/-- `vk::BufferUsageFlagBits::eTransferDst`. -/
def transferDstBit : Nat := 2

/-- A `vkw::buffer<T>`: element count, usage and memory-property flags, and
the bytes of its bound device memory. -/
structure bufferState where
  count : Nat
  usage : Nat
  property_flags : Nat
  mem : List Nat
deriving DecidableEq, Repr

/-- Buffer construction (buffer.h:18-31): a buffer of `count * sizeof(T)`
bytes bound at offset 0 of freshly allocated memory (contents modelled as
zeros). -/
def mk_buffer (elemSize count usage property_flags : Nat) : bufferState :=
  ⟨count, usage, property_flags, List.replicate (count * elemSize) 0⟩

/-- Serialize a value list through a fixed-size element encoding
(`sizeof(T)` bytes per element). -/
def encodeList (enc : α → List Nat) (data : List α) : List Nat :=
  (data.map enc).flatten

/-- Host-visible upload of a span (buffer.h:55-65): map at offset 0,
memcpy `bytes.length` bytes, unmap. -/
def host_upload (b : bufferState) (bytes : List Nat) : bufferState :=
  { b with mem := bytes ++ b.mem.drop bytes.length }

/-- A recorded transfer command (`vk::CommandBuffer::copyBuffer` with one
`vk::BufferCopy{srcOffset, dstOffset, size}` region). -/
inductive BufferCmd where
  | copyBuffer (srcOffset dstOffset size : Nat)
deriving DecidableEq, Repr

/-- Execute one transfer command against source and destination memory. -/
def exec_copy (src dst : List Nat) : BufferCmd → List Nat
  | .copyBuffer srcOffset dstOffset size =>
    dst.take dstOffset ++ (src.drop srcOffset).take size ++ dst.drop (dstOffset + size)

/-- Embeds the staged-upload overload `buffer<T>::upload(device, command_pool,
queue, span)` (buffer.h:67-92): build a transient `TransferSrc` staging
buffer of `data.size()` elements with the default host-visible/host-coherent
memory, upload the span into it, record a one-time-submit command buffer
holding a single `copyBuffer` of `data.size() * sizeof(T)` bytes from offset
0 to offset 0, submit it and wait for the queue to go idle (executing the
recorded commands).  Returns the staging buffer, the recorded command list
and the destination buffer afterwards. -/
def staged_upload (elemSize : Nat) (enc : α → List Nat) (b : bufferState) (data : List α) :
    bufferState × List BufferCmd × bufferState :=
  let data_size := data.length * elemSize
  let staging0 := mk_buffer elemSize data.length transferSrcBit (hostVisibleBit ||| hostCoherentBit)
  let staging_buffer := host_upload staging0 (encodeList enc data)
  let cmds := [BufferCmd.copyBuffer 0 0 data_size]
  let dst_mem := cmds.foldl (fun mem c => exec_copy staging_buffer.mem mem c) b.mem
  (staging_buffer, cmds, { b with mem := dst_mem })

/-- The bit positions set in `F`, in ascending order, scanning bits 0-31
(the positions `separate_flags` turns into single-bit values). -/
def bits_of (F : Nat) : List Nat :=
  (List.range 32).filter (fun b => F.testBit b)

/-- The permutation value of the second constructor pass that selects
exactly the separated bits of `F` present in `S`. -/
def perm_index (bits : List Nat) (S : Nat) : Nat :=
  (List.range bits.length).foldl
    (fun a i => if S.testBit (bits.getD i 0) then a ||| 2 ^ i else a) 0

/-- The queue `q` belongs to a requested family whose capability flags
contain `S`. -/
def queue_from_superset_family (list : List queue_family_info) (S : Nat) (q : Queue) : Prop :=
  ∃ fam ∈ list, q.family_idx = fam.family_idx ∧ S &&& fam.flags = S

/-- Invariant carried through the two construction passes: every mapped
queue comes from a superset family, and the entry at each requested family's
exact flags is at least as long as that family's queue list. -/
def map_invariant (list : List queue_family_info) (m : QMap) : Prop :=
  (∀ S q, q ∈ m S → queue_from_superset_family list S q)
  ∧ ∀ fam ∈ list, fam.queues.length ≤ (m fam.flags).length

/-! ## Theorems -/

theorem findMemoryTypeGo_spec (req : Nat) (l : List MemoryType) :
    ∀ (bits k : Nat),
      (∀ i, findMemoryTypeGo req l bits k = some i →
        ∃ j, i = k + j ∧ j < l.length ∧ (bits >>> j) &&& 1 = 1
          ∧ (l.getD j default).propertyFlags &&& req = req
          ∧ ∀ m, m < j → ¬((bits >>> m) &&& 1 = 1 ∧ (l.getD m default).propertyFlags &&& req = req))
      ∧ (findMemoryTypeGo req l bits k = none ↔
          ∀ j, j < l.length →
            ¬((bits >>> j) &&& 1 = 1 ∧ (l.getD j default).propertyFlags &&& req = req)) := by
  induction l with
  | nil => intro bits k; simp [findMemoryTypeGo]
  | cons t rest ih =>
    intro bits k
    have hshift : ∀ j, (bits >>> 1) >>> j = bits >>> (j + 1) := by
      intro j
      rw [← Nat.shiftRight_add, Nat.add_comm]
    constructor
    · intro i hi
      by_cases hc : bits &&& 1 = 1 ∧ t.propertyFlags &&& req = req
      · simp [findMemoryTypeGo, hc] at hi
        refine ⟨0, by omega, by simp, ?_, ?_, by omega⟩
        · simpa using hc.1
        · simpa using hc.2
      · simp only [findMemoryTypeGo, if_neg hc] at hi
        obtain ⟨j, hij, hjlen, hbit, hflag, hmin⟩ := ((ih (bits >>> 1) (k + 1)).1 i) hi
        refine ⟨j + 1, by omega, by simp; omega, ?_, ?_, ?_⟩
        · rw [← hshift]; exact hbit
        · simpa using hflag
        · intro m hm
          match m with
          | 0 => simpa using hc
          | m + 1 =>
            have := hmin m (by omega)
            rw [hshift] at this
            simpa using this
    · by_cases hc : bits &&& 1 = 1 ∧ t.propertyFlags &&& req = req
      · simp only [findMemoryTypeGo, if_pos hc]
        constructor
        · intro h; cases h
        · intro h
          exact absurd (by simpa using hc) (h 0 (by simp))
      · simp only [findMemoryTypeGo, if_neg hc]
        rw [(ih (bits >>> 1) (k + 1)).2]
        constructor
        · intro h j hj
          match j with
          | 0 => simpa using hc
          | j + 1 =>
            have := h j (by simpa using hj)
            rw [hshift] at this
            simpa using this
        · intro h j hj
          have := h (j + 1) (by simp; omega)
          rw [← hshift] at this
          simpa using this

/-- C5: `find_memory_type(properties, type_bits, required)` returns the lowest
index `i` such that bit `i` of `type_bits` is set and the type's property
flags contain `required` — no smaller index satisfies both — and it fails
exactly when no such index exists. -/
theorem C5_find_memory_type (types : List MemoryType) (typeBits requirementsMask : Nat) :
    (∀ i, findMemoryType types typeBits requirementsMask = some i →
      i < types.length ∧ (typeBits >>> i) &&& 1 = 1
        ∧ (types.getD i default).propertyFlags &&& requirementsMask = requirementsMask
        ∧ ∀ j, j < i → ¬((typeBits >>> j) &&& 1 = 1
            ∧ (types.getD j default).propertyFlags &&& requirementsMask = requirementsMask))
    ∧ (findMemoryType types typeBits requirementsMask = none ↔
        ∀ i, i < types.length → ¬((typeBits >>> i) &&& 1 = 1
            ∧ (types.getD i default).propertyFlags &&& requirementsMask = requirementsMask)) := by
  have h := findMemoryTypeGo_spec requirementsMask types typeBits 0
  constructor
  · intro i hi
    obtain ⟨j, hij, hjlen, hbit, hflag, hmin⟩ := h.1 i hi
    have hij0 : i = j := by omega
    subst hij0
    exact ⟨hjlen, hbit, hflag, hmin⟩
  · exact h.2

/-- C5 witness: a concrete run of `find_memory_type`. -/
theorem C5_find_memory_type_witness :
    findMemoryType [⟨1⟩, ⟨6⟩, ⟨6⟩] 6 6 = some 1 →
      1 < 3 ∧ (6 >>> 1) &&& 1 = 1 ∧ 6 &&& 6 = 6 := by
  intro h
  have := (C5_find_memory_type [⟨1⟩, ⟨6⟩, ⟨6⟩] 6 6).1 1 h
  exact ⟨by decide, by decide, by decide⟩

theorem selectSrgbGo_spec (formats : List SurfaceFormatKHR) (ds : List VkFormat) :
    ((selectSrgbGo formats ds).isSome = true ↔
      ∃ sf ∈ formats, sf.colorSpace = .srgbNonlinear ∧ sf.format ∈ ds)
    ∧ ∀ sf, selectSrgbGo formats ds = some sf →
        sf ∈ formats ∧ sf.colorSpace = .srgbNonlinear
        ∧ ∃ k, k < ds.length ∧ sf.format = ds.getD k (.otherFormat 0)
          ∧ ∀ j, j < k → ∀ g ∈ formats,
              ¬(g.format = ds.getD j (.otherFormat 0) ∧ g.colorSpace = .srgbNonlinear) := by
  induction ds with
  | nil => simp [selectSrgbGo]
  | cons d rest ih =>
    cases hf : formats.find? (fun sf => decide (sf.format = d ∧ sf.colorSpace = .srgbNonlinear)) with
    | some sf0 =>
      have mem0 := List.mem_of_find?_eq_some hf
      have p0 := List.find?_some hf
      simp only [decide_eq_true_eq] at p0
      constructor
      · simp only [selectSrgbGo, hf]
        constructor
        · intro _
          exact ⟨sf0, mem0, p0.2, by simp [p0.1]⟩
        · intro _; rfl
      · intro sf hsf
        simp only [selectSrgbGo, hf, Option.some.injEq] at hsf
        subst hsf
        exact ⟨mem0, p0.2, 0, by simp, by simpa using p0.1, by omega⟩
    | none =>
      have hnone : ∀ g ∈ formats, ¬(g.format = d ∧ g.colorSpace = .srgbNonlinear) := by
        intro g hg
        have := List.find?_eq_none.mp hf g hg
        simpa using this
      constructor
      · simp only [selectSrgbGo, hf]
        rw [ih.1]
        constructor
        · rintro ⟨sf, hmem, hcs, hfmt⟩
          exact ⟨sf, hmem, hcs, by simp [hfmt]⟩
        · rintro ⟨sf, hmem, hcs, hfmt⟩
          rcases List.mem_cons.mp hfmt with heq | hmemr
          · exact absurd ⟨heq, hcs⟩ (hnone sf hmem)
          · exact ⟨sf, hmem, hcs, hmemr⟩
      · intro sf hsf
        simp only [selectSrgbGo, hf] at hsf
        obtain ⟨hmem, hcs, k, hk, hfmt, hmin⟩ := ih.2 sf hsf
        refine ⟨hmem, hcs, k + 1, by simpa using hk, by simpa using hfmt, ?_⟩
        intro j hj g hg
        match j with
        | 0 => simpa using hnone g hg
        | j + 1 =>
          have := hmin j (by omega) g hg
          simpa using this

/-- C6: `select_srgb_surface_format(formats)` returns a value iff `formats`
contains an SRGB-nonlinear entry whose format is one of the four 8-bit SRGB
formats, and the returned entry matches the earliest such format of the
fixed priority order (BGRA8, RGBA8, BGR8, RGB8). -/
theorem C6_select_srgb_surface_format (formats : List SurfaceFormatKHR) :
    ((select_srgb_surface_format formats).isSome = true ↔
      ∃ sf ∈ formats, sf.colorSpace = .srgbNonlinear ∧ sf.format ∈ desired_srgb_formats)
    ∧ ∀ sf, select_srgb_surface_format formats = some sf →
        sf ∈ formats ∧ sf.colorSpace = .srgbNonlinear
        ∧ ∃ k, k < desired_srgb_formats.length
          ∧ sf.format = desired_srgb_formats.getD k (.otherFormat 0)
          ∧ ∀ j, j < k → ∀ g ∈ formats,
              ¬(g.format = desired_srgb_formats.getD j (.otherFormat 0)
                ∧ g.colorSpace = .srgbNonlinear) :=
  selectSrgbGo_spec formats desired_srgb_formats

/-- C6 witness: scenario S4 of the spec — the BGRA8 entry wins even though
an RGBA8 entry comes first in the surface's list. -/
theorem C6_select_srgb_surface_format_witness :
    select_srgb_surface_format
        [⟨.r8g8b8a8Srgb, .srgbNonlinear⟩, ⟨.b8g8r8a8Srgb, .srgbNonlinear⟩]
      = some ⟨.b8g8r8a8Srgb, .srgbNonlinear⟩ →
    (⟨.b8g8r8a8Srgb, .srgbNonlinear⟩ : SurfaceFormatKHR)
        ∈ [(⟨.r8g8b8a8Srgb, .srgbNonlinear⟩ : SurfaceFormatKHR), ⟨.b8g8r8a8Srgb, .srgbNonlinear⟩]
      ∧ (⟨.b8g8r8a8Srgb, .srgbNonlinear⟩ : SurfaceFormatKHR).colorSpace = .srgbNonlinear := by
  intro h
  have := (C6_select_srgb_surface_format
    [⟨.r8g8b8a8Srgb, .srgbNonlinear⟩, ⟨.b8g8r8a8Srgb, .srgbNonlinear⟩]).2 _ h
  exact ⟨this.1, this.2.1⟩

/-- C9: the claim states the validation layer is appended iff it is present
in the driver-reported layer properties and not already requested.  The code
inverts the availability test (`strcmp` without `== 0`): when the driver
reports exactly the validation layer and nothing else, the layer is *not*
appended; when the driver reports only some other layer, the validation
layer *is* appended — and the subsequent required-layer validation then
fails on it. -/
theorem C9_validation_layer_bug :
    add_validation_layer true [] [⟨validation_layer_name⟩] = []
    ∧ (⟨validation_layer_name⟩ : LayerProperties) ∈ [(⟨validation_layer_name⟩ : LayerProperties)]
    ∧ validation_layer_name ∉ ([] : List String)
    ∧ add_validation_layer true [] [⟨"VK_LAYER_other"⟩] = [validation_layer_name]
    ∧ (∀ lp ∈ [(⟨"VK_LAYER_other"⟩ : LayerProperties)], lp.layerName ≠ validation_layer_name)
    ∧ validate_layers (add_validation_layer true [] [⟨"VK_LAYER_other"⟩]) [⟨"VK_LAYER_other"⟩]
        = false := by
  refine ⟨by decide, by decide, by decide, by decide, by decide, by decide⟩

/-- C8 counterexample: with a single shared queue family the source selects
`Concurrent` sharing, whereas the claim (two or more distinct entries)
demands `Exclusive`. -/
theorem C8_counterexample :
    ((swapchain.create_impl
        (swapchain.create ⟨.b8g8r8a8Srgb, .srgbNonlinear⟩ 16 ⟨640, 480⟩ true [0])
        ⟨2, ⟨2 ^ 32 - 1, 0⟩, ⟨1, 1⟩, ⟨4096, 4096⟩, 1, 1, 1⟩ []).vk_swapchain.map
          (·.imageSharingMode) = some .concurrent)
    ∧ ([0] : List Nat).dedup.length < 2 := by
  constructor
  · rfl
  · decide

/-- C8 amended: the (re)build selects `Concurrent` image sharing with the
captured family list exactly when `shared_queue_families` is non-empty
(regardless of multiplicity or distinctness), and `Exclusive` with an empty
family list otherwise. -/
theorem C8_sharing_mode (s : swapchain) (caps : SurfaceCapabilitiesKHR)
    (modes : List PresentModeKHR) :
    ∃ info, (swapchain.create_impl s caps modes).vk_swapchain = some info
      ∧ (info.imageSharingMode = if s.shared_queues = [] then .exclusive else .concurrent)
      ∧ info.queueFamilyIndices = (if s.shared_queues = [] then [] else s.shared_queues) := by
  by_cases h : s.shared_queues = []
  · exact ⟨_, rfl, by simp [swapchain.create_impl, h], by simp [swapchain.create_impl, h]⟩
  · exact ⟨_, rfl, by simp [swapchain.create_impl, h], by simp [swapchain.create_impl, h]⟩

/-- C3: after the first build the stored image handles and views both match
the negotiated minimum image count, but `create_impl` never clears either
container, so the rebuild performed by `resize` appends: with a negotiated
count of 2, one resize leaves 4 stored images and 6 stored views (the view
loop runs over the grown image list), falsifying the claimed invariant
`|images| = |image_views| = negotiated count`. -/
theorem C3_rebuild_accumulates :
    (let caps : SurfaceCapabilitiesKHR := ⟨2, ⟨2 ^ 32 - 1, 0⟩, ⟨640, 480⟩, ⟨4096, 4096⟩, 1, 1, 2⟩
     let first := swapchain.create_impl
        (swapchain.create ⟨.b8g8r8a8Srgb, .srgbNonlinear⟩ 16 ⟨640, 480⟩ true []) caps []
     let after := swapchain.resize first caps [] ⟨800, 600⟩
     first.images.length = 2 ∧ first.image_views.length = 2
       ∧ caps.minImageCount = 2
       ∧ after.images.length = 4 ∧ after.image_views.length = 6) := by
  refine ⟨rfl, rfl, rfl, rfl, rfl⟩

theorem encodeList_length {α : Type} (enc : α → List Nat) (elemSize : Nat)
    (henc : ∀ x, (enc x).length = elemSize) (data : List α) :
    (encodeList enc data).length = data.length * elemSize := by
  induction data with
  | nil => simp [encodeList]
  | cons x rest ih =>
    simp only [encodeList, List.map_cons, List.flatten_cons, List.length_append, henc x,
      List.length_cons]
    rw [show (encodeList enc rest) = (rest.map enc).flatten from rfl] at ih
    rw [ih]
    ring

/-- C7: under the staged-upload preconditions (destination usage includes
`TransferDst`, destination memory is device-local, the span fits the
buffer), the staged upload builds a transient host-visible/host-coherent
`TransferSrc` staging buffer of the span's element count whose memory holds
exactly the encoded span, records a single buffer-to-buffer copy of
`data.size() * sizeof(T)` bytes from offset 0 to offset 0, and after the
submitted commands execute the destination's device bytes begin with the
encoded span while the buffer's size and parameters are unchanged. -/
theorem C7_staged_upload {α : Type} (elemSize : Nat) (enc : α → List Nat)
    (b : bufferState) (data : List α)
    (henc : ∀ x, (enc x).length = elemSize)
    (hcount : data.length ≤ b.count)
    (hmem : b.mem.length = b.count * elemSize)
    (husage : b.usage &&& transferDstBit = transferDstBit)
    (hprops : b.property_flags &&& deviceLocalBit = deviceLocalBit) :
    (staged_upload elemSize enc b data).1.count = data.length
    ∧ (staged_upload elemSize enc b data).1.usage = transferSrcBit
    ∧ (staged_upload elemSize enc b data).1.property_flags = hostVisibleBit ||| hostCoherentBit
    ∧ (staged_upload elemSize enc b data).1.mem = encodeList enc data
    ∧ (staged_upload elemSize enc b data).2.1
        = [BufferCmd.copyBuffer 0 0 (data.length * elemSize)]
    ∧ (staged_upload elemSize enc b data).2.2.mem.take (data.length * elemSize)
        = encodeList enc data
    ∧ (staged_upload elemSize enc b data).2.2.mem.length = b.mem.length
    ∧ (staged_upload elemSize enc b data).2.2.count = b.count
    ∧ (staged_upload elemSize enc b data).2.2.usage = b.usage
    ∧ (staged_upload elemSize enc b data).2.2.property_flags = b.property_flags := by
  have hlen := encodeList_length enc elemSize henc data
  have hsize : data.length * elemSize ≤ b.mem.length := by
    rw [hmem]
    exact Nat.mul_le_mul_right elemSize hcount
  have hstage : (staged_upload elemSize enc b data).1.mem = encodeList enc data := by
    show encodeList enc data
        ++ (List.replicate (data.length * elemSize) 0).drop (encodeList enc data).length = _
    rw [hlen, List.drop_replicate, Nat.sub_self, List.replicate_zero, List.append_nil]
  have hdst : (staged_upload elemSize enc b data).2.2.mem
      = encodeList enc data ++ b.mem.drop (data.length * elemSize) := by
    show exec_copy ((staged_upload elemSize enc b data).1.mem) b.mem
        (BufferCmd.copyBuffer 0 0 (data.length * elemSize)) = _
    rw [hstage]
    show b.mem.take 0 ++ ((encodeList enc data).drop 0).take (data.length * elemSize)
        ++ b.mem.drop (0 + data.length * elemSize) = _
    rw [List.take_zero, List.drop_zero, Nat.zero_add, List.nil_append,
      List.take_of_length_le (le_of_eq hlen)]
  refine ⟨rfl, rfl, rfl, hstage, rfl, ?_, ?_, rfl, rfl, rfl⟩
  · rw [hdst, ← hlen, List.take_left]
  · rw [hdst, List.length_append, List.length_drop, hlen]
    omega

/-- C7 witness: a concrete staged upload of two one-byte elements into a
four-element device-local destination. -/
theorem C7_staged_upload_witness :
    (staged_upload 1 (fun x : Nat => [x % 256]) (mk_buffer 1 4 transferDstBit deviceLocalBit)
        [7, 8]).2.1 = [BufferCmd.copyBuffer 0 0 2]
    ∧ (staged_upload 1 (fun x : Nat => [x % 256]) (mk_buffer 1 4 transferDstBit deviceLocalBit)
        [7, 8]).2.2.mem.take 2 = encodeList (fun x : Nat => [x % 256]) [7, 8] := by
  have h := C7_staged_upload 1 (fun x : Nat => [x % 256])
    (mk_buffer 1 4 transferDstBit deviceLocalBit) [7, 8]
    (fun x => rfl) (by decide) (by decide) (by decide) (by decide)
  exact ⟨h.2.2.2.2.1, h.2.2.2.2.2.1⟩

theorem family_reports_no_oob (props : List QueueFamilyProperties) (fam : queue_family_info)
    (r : List QueueValidationReport) (h : family_reports props fam = some r) :
    ∀ i, QueueValidationReport.familyIndexOutOfRange i ∉ r := by
  intro i hmem
  unfold family_reports at h
  cases hlook : props[fam.family_idx]? with
  | none => rw [hlook] at h; cases h
  | some property =>
    rw [hlook] at h
    have hin : fam.family_idx < props.length := by
      by_contra hge
      rw [List.getElem?_eq_none (by omega)] at hlook
      cases hlook
    have hr : r = (if props.length ≤ fam.family_idx
          then [QueueValidationReport.familyIndexOutOfRange fam.family_idx] else [])
        ++ (if fam.queues = [] then [QueueValidationReport.emptyQueueList fam.family_idx] else [])
        ++ (if property.queueCount < fam.queues.length
          then [QueueValidationReport.tooManyQueues fam.family_idx] else [])
        ++ (if property.queueFlags &&& fam.flags ≠ fam.flags
          then [QueueValidationReport.unsupportedFlags fam.family_idx] else [])
        ++ (List.range fam.queues.length).filterMap (fun qi =>
            if (fam.queues.getD qi default).priority < 0 ∨ 1 < (fam.queues.getD qi default).priority
            then some (QueueValidationReport.invalidPriority fam.family_idx qi) else none) := by
      cases h; rfl
    rw [if_neg (by omega)] at hr
    subst hr
    simp only [List.nil_append, List.mem_append, List.mem_filterMap] at hmem
    rcases hmem with ((h1 | h2) | h3) | h4
    · split at h1 <;> simp_all
    · split at h2 <;> simp_all
    · split at h3 <;> simp_all
    · obtain ⟨qi, _, hq⟩ := h4
      split at hq <;> simp_all

theorem family_reports_spec (props : List QueueFamilyProperties) (fam : queue_family_info)
    (h : fam.family_idx < props.length) :
    ∃ r, family_reports props fam = some r ∧ (r ≠ [] ↔ bad_family props fam) := by
  have hlook : props[fam.family_idx]? = some props[fam.family_idx] := List.getElem?_eq_getElem h
  have hgetD : props.getD fam.family_idx default = props[fam.family_idx] := by
    simp [List.getD_eq_getElem?_getD, hlook]
  refine ⟨_, by unfold family_reports; rw [hlook], ?_⟩
  rw [if_neg (by omega)]
  simp only [List.nil_append, bad_family, hgetD]
  constructor
  · intro hne
    rcases List.exists_mem_of_ne_nil _ hne with ⟨x, hx⟩
    simp only [List.mem_append, List.mem_filterMap] at hx
    rcases hx with ((h1 | h2) | h3) | h4
    · split at h1
      · exact Or.inl (by assumption)
      · simp at h1
    · split at h2
      · exact Or.inr (Or.inl (by assumption))
      · simp at h2
    · split at h3
      · exact Or.inr (Or.inr (Or.inl (by assumption)))
      · simp at h3
    · obtain ⟨qi, hqi, hq⟩ := h4
      rw [List.mem_range] at hqi
      split at hq
      · refine Or.inr (Or.inr (Or.inr ⟨fam.queues.getD qi default, ?_, by assumption⟩))
        have : fam.queues.getD qi default = fam.queues[qi] := by
          simp [List.getD_eq_getElem?_getD, List.getElem?_eq_getElem hqi]
        rw [this]
        exact List.getElem_mem hqi
      · cases hq
  · intro hbad
    rcases hbad with h1 | h2 | h3 | h4
    · rw [if_pos h1]
      simp
    · rw [if_pos h2]
      intro hcontra
      simp only [List.append_assoc, List.append_eq_nil] at hcontra
      exact absurd hcontra.2.1 (by simp)
    · rw [if_pos h3]
      intro hcontra
      simp only [List.append_assoc, List.append_eq_nil] at hcontra
      exact absurd hcontra.2.2.1 (by simp)
    · obtain ⟨q, hqmem, hqbad⟩ := h4
      obtain ⟨qi, hqi, hqeq⟩ := List.getElem_of_mem hqmem
      intro hcontra
      simp only [List.append_assoc, List.append_eq_nil, List.filterMap_eq_nil_iff] at hcontra
      have := hcontra.2.2.2 qi (List.mem_range.mpr hqi)
      rw [if_pos (by
        have : fam.queues.getD qi default = q := by
          simp [List.getD_eq_getElem?_getD, List.getElem?_eq_getElem hqi, hqeq]
        rw [this]; exact hqbad)] at this
      cases this

theorem validate_fold_no_oob (props : List QueueFamilyProperties) :
    ∀ (list : List queue_family_info) (acc : Option (List QueueValidationReport))
      (l : List QueueValidationReport),
      (∀ l0, acc = some l0 → ∀ i, QueueValidationReport.familyIndexOutOfRange i ∉ l0) →
      list.foldl (fun acc fam => do pure ((← acc) ++ (← family_reports props fam))) acc = some l →
      ∀ i, QueueValidationReport.familyIndexOutOfRange i ∉ l := by
  intro list
  induction list with
  | nil =>
    intro acc l hacc hfold
    exact hacc l hfold
  | cons fam rest ih =>
    intro acc l hacc hfold
    refine ih _ l ?_ hfold
    intro l0 hl0 i hmem
    cases hac : acc with
    | none => rw [hac] at hl0; cases hl0
    | some a =>
      rw [hac] at hl0
      simp only [Option.bind_eq_bind, Option.some_bind] at hl0
      cases hfr : family_reports props fam with
      | none => rw [hfr] at hl0; cases hl0
      | some r =>
        rw [hfr] at hl0
        simp only [Option.some_bind, Option.pure_def, Option.some.injEq] at hl0
        subst hl0
        rcases List.mem_append.mp hmem with hm | hm
        · exact hacc a hac i hm
        · exact family_reports_no_oob props fam r hfr i hm

theorem validate_fold_spec (props : List QueueFamilyProperties) :
    ∀ (list : List queue_family_info), (∀ fam ∈ list, fam.family_idx < props.length) →
      ∀ (l0 : List QueueValidationReport),
      ∃ l, list.foldl (fun acc fam => do pure ((← acc) ++ (← family_reports props fam)))
            (some l0) = some l
        ∧ (l ≠ [] ↔ l0 ≠ [] ∨ ∃ fam ∈ list, bad_family props fam) := by
  intro list
  induction list with
  | nil =>
    intro _ l0
    exact ⟨l0, rfl, by simp⟩
  | cons fam rest ih =>
    intro hin l0
    obtain ⟨r, hr, hriff⟩ := family_reports_spec props fam (hin fam (by simp))
    obtain ⟨l, hl, hliff⟩ := ih (fun g hg => hin g (by simp [hg])) (l0 ++ r)
    refine ⟨l, ?_, ?_⟩
    · rw [List.foldl_cons]
      have : (do pure ((← some l0) ++ (← family_reports props fam))
          : Option (List QueueValidationReport)) = some (l0 ++ r) := by
        rw [hr]; rfl
      rw [this]
      exact hl
    · rw [hliff]
      constructor
      · rintro (hne | ⟨g, hg, hbad⟩)
        · rcases (by
            by_contra hcon
            push_neg at hcon
            exact hne (by rw [hcon.1, hcon.2]; rfl) : l0 ≠ [] ∨ r ≠ []) with h | h
          · exact Or.inl h
          · exact Or.inr ⟨fam, by simp, hriff.mp h⟩
        · exact Or.inr ⟨g, by simp [hg], hbad⟩
      · rintro (hne | ⟨g, hg, hbad⟩)
        · exact Or.inl (by simp [hne])
        · rcases List.mem_cons.mp hg with rfl | hgr
          · exact Or.inl (by simp [hriff.mpr hbad])
          · exact Or.inr ⟨g, hgr, hbad⟩

/-- C10 (amended): (1) a defined run of `validate_queues` never reports a
family index out of range — the source indexes the property array before the
range check, so in the total embedding the out-of-bounds read aborts the run
first and the report is unreachable; (2) when the reported property list is
non-empty and every requested family index is in range, validation throws
(produces a non-empty report list) exactly when some entry has an empty
queue list, more queues than the family's reported count, flags not
contained in the family's reported flags, or a priority outside [0, 1]. -/
theorem C10_validate_queues :
    (∀ (list : List queue_family_info) (props : List QueueFamilyProperties)
        (l : List QueueValidationReport),
      validate_queues list props = some l →
      ∀ i, QueueValidationReport.familyIndexOutOfRange i ∉ l)
    ∧ (∀ (list : List queue_family_info) (props : List QueueFamilyProperties),
        props ≠ [] → (∀ fam ∈ list, fam.family_idx < props.length) →
        ∃ l, validate_queues list props = some l
          ∧ (l ≠ [] ↔ ∃ fam ∈ list, bad_family props fam)) := by
  constructor
  · intro list props l h i
    unfold validate_queues at h
    split at h
    · cases h
      simp
    · exact validate_fold_no_oob props list (some []) l
        (by rintro l0 ⟨rfl⟩; simp) h i
  · intro list props hprops hin
    obtain ⟨l, hl, hliff⟩ := validate_fold_spec props list hin []
    refine ⟨l, ?_, ?_⟩
    · unfold validate_queues
      rw [if_neg hprops]
      exact hl
    · rw [hliff]
      simp

/-- C10 counterexample to the claim as stated: with an empty property list
and an empty request list the in-range precondition holds vacuously and no
entry violates any per-entry condition, yet the source throws ("No queue
family properties"). -/
theorem C10_counterexample :
    (∃ l, validate_queues [] [] = some l ∧ l ≠ [])
    ∧ (∀ fam ∈ ([] : List queue_family_info),
        fam.family_idx < ([] : List QueueFamilyProperties).length)
    ∧ ¬(∃ fam ∈ ([] : List queue_family_info), bad_family [] fam) := by
  exact ⟨⟨[.noProperties], rfl, by simp⟩, by simp, by simp⟩

/-- C10 witness: a concrete run with one family whose queue list is empty,
which the amended theorem reports as throwing. -/
theorem C10_validate_queues_witness :
    ∃ l, validate_queues [⟨0, 7, []⟩] [⟨7, 2⟩] = some l
      ∧ (l ≠ [] ↔ ∃ fam ∈ [(⟨0, 7, []⟩ : queue_family_info)], bad_family [⟨7, 2⟩] fam) :=
  C10_validate_queues.2 [⟨0, 7, []⟩] [⟨7, 2⟩] (by simp) (by simp)

theorem findIdx?_getD_spec {α : Type} [Inhabited α] (p : α → Bool) (l : List α) :
    (∀ i, l.findIdx? p = some i ↔
      i < l.length ∧ p (l.getD i default) = true ∧ ∀ j, j < i → p (l.getD j default) = false)
    ∧ (l.findIdx? p = none ↔ ∀ i, i < l.length → p (l.getD i default) = false) := by
  constructor
  · intro i
    rw [List.findIdx?_eq_some_iff_getElem]
    constructor
    · rintro ⟨h, hp, hmin⟩
      refine ⟨h, ?_, ?_⟩
      · rwa [List.getD_eq_getElem?_getD, List.getElem?_eq_getElem h, Option.getD_some]
      · intro j hj
        have hjl : j < l.length := by omega
        have := hmin j hj
        rw [List.getD_eq_getElem?_getD, List.getElem?_eq_getElem hjl, Option.getD_some]
        simpa using this
    · rintro ⟨h, hp, hmin⟩
      refine ⟨h, ?_, ?_⟩
      · rwa [List.getD_eq_getElem?_getD, List.getElem?_eq_getElem h, Option.getD_some] at hp
      · intro j hj
        have hjl : j < l.length := by omega
        have := hmin j hj
        rw [List.getD_eq_getElem?_getD, List.getElem?_eq_getElem hjl, Option.getD_some] at this
        simpa using this
  · rw [List.findIdx?_eq_none_iff]
    constructor
    · intro h i hi
      have := h (l.getD i default) (by
        rw [List.getD_eq_getElem?_getD, List.getElem?_eq_getElem hi, Option.getD_some]
        exact List.getElem_mem hi)
      exact this
    · intro h x hx
      obtain ⟨i, hi, rfl⟩ := List.getElem_of_mem hx
      have := h i hi
      rwa [List.getD_eq_getElem?_getD, List.getElem?_eq_getElem hi, Option.getD_some] at this

theorem tryIdx_some_iff (findres : Option Nat) (avail : List QueueFamilyProperties)
    (count i : Nat) :
    findres.bind (fun j => if count ≤ (avail.getD j default).queueCount then some j else none)
        = some i
      ↔ findres = some i ∧ count ≤ (avail.getD i default).queueCount := by
  cases findres with
  | none => simp
  | some j =>
    simp only [Option.some_bind, Option.some.injEq]
    constructor
    · intro h
      by_cases hc : count ≤ (avail.getD j default).queueCount
      · rw [if_pos hc] at h
        cases h
        exact ⟨rfl, hc⟩
      · rw [if_neg hc] at h
        cases h
    · rintro ⟨rfl, hc⟩
      rw [if_pos hc]

theorem tryIdx_strong_none_iff (avail : List QueueFamilyProperties) (flags count : Nat) :
    ((find_queue_family_index_strong avail flags).bind
        (fun i => if count ≤ (avail.getD i default).queueCount then some i else none) = none
      ↔ ∀ j, j < avail.length → (avail.getD j default).queueFlags = flags →
          (∀ m, m < j → (avail.getD m default).queueFlags ≠ flags) →
          (avail.getD j default).queueCount < count) := by
  have hspec := findIdx?_getD_spec (fun p => decide (p.queueFlags = flags)) avail
  constructor
  · intro h j hj hflags hmin
    have hfind : find_queue_family_index_strong avail flags = some j := by
      rw [find_queue_family_index_strong, (hspec.1 j)]
      exact ⟨hj, by simpa using hflags, fun m hm => by simpa using hmin m hm⟩
    rw [hfind] at h
    simp only [Option.some_bind] at h
    by_contra hge
    rw [if_pos (by omega)] at h
    cases h
  · intro h
    cases hfind : find_queue_family_index_strong avail flags with
    | none => rfl
    | some i =>
      obtain ⟨hi, hp, hmin⟩ := (hspec.1 i).mp hfind
      simp only [Option.some_bind]
      rw [if_neg]
      have := h i hi (by simpa using hp) (fun m hm => by simpa using hmin m hm)
      omega

theorem tryIdx_weak_none_iff (avail : List QueueFamilyProperties) (flags count : Nat) :
    ((find_queue_family_index_weak avail flags).bind
        (fun i => if count ≤ (avail.getD i default).queueCount then some i else none) = none
      ↔ ∀ j, j < avail.length → (avail.getD j default).queueFlags &&& flags = flags →
          (∀ m, m < j → (avail.getD m default).queueFlags &&& flags ≠ flags) →
          (avail.getD j default).queueCount < count) := by
  have hspec := findIdx?_getD_spec (fun p => decide (p.queueFlags &&& flags = flags)) avail
  constructor
  · intro h j hj hflags hmin
    have hfind : find_queue_family_index_weak avail flags = some j := by
      rw [find_queue_family_index_weak, (hspec.1 j)]
      exact ⟨hj, by simpa using hflags, fun m hm => by simpa using hmin m hm⟩
    rw [hfind] at h
    simp only [Option.some_bind] at h
    by_contra hge
    rw [if_pos (by omega)] at h
    cases h
  · intro h
    cases hfind : find_queue_family_index_weak avail flags with
    | none => rfl
    | some i =>
      obtain ⟨hi, hp, hmin⟩ := (hspec.1 i).mp hfind
      simp only [Option.some_bind]
      rw [if_neg]
      have := h i hi (by simpa using hp) (fun m hm => by simpa using hmin m hm)
      omega

/-- C4 (amended): adding queues by capability checks the availability count
only on the *first* exactly-matching family: it succeeds through the strong
path iff the first family with exactly the requested flags has at least
`count` unreserved queues, otherwise through the weak path iff the first
family whose flags contain the request has at least `count` unreserved
queues, and fails otherwise (the source reports only this success boolean,
not the chosen family index).  Unreserved counts are the driver counts minus
the already-requested queues (`available_props`). -/
theorem C4_add_queues_by_capability (props : List QueueFamilyProperties)
    (list : List queue_family_info) (flags : Nat) (priority : ℚ) (count : Nat) :
    (∀ i newList, addQueuesFlags props list flags priority count = some (i, newList) →
      newList = addQueuesIdx props list i priority count
      ∧ ((i < (available_props props list).length
            ∧ ((available_props props list).getD i default).queueFlags = flags
            ∧ (∀ j, j < i → ((available_props props list).getD j default).queueFlags ≠ flags)
            ∧ count ≤ ((available_props props list).getD i default).queueCount)
        ∨ ((∀ j, j < (available_props props list).length →
              ((available_props props list).getD j default).queueFlags = flags →
              (∀ m, m < j → ((available_props props list).getD m default).queueFlags ≠ flags) →
              ((available_props props list).getD j default).queueCount < count)
          ∧ i < (available_props props list).length
          ∧ ((available_props props list).getD i default).queueFlags &&& flags = flags
          ∧ (∀ j, j < i →
              ((available_props props list).getD j default).queueFlags &&& flags ≠ flags)
          ∧ count ≤ ((available_props props list).getD i default).queueCount)))
    ∧ (addQueuesFlags props list flags priority count = none ↔
        (∀ j, j < (available_props props list).length →
          ((available_props props list).getD j default).queueFlags = flags →
          (∀ m, m < j → ((available_props props list).getD m default).queueFlags ≠ flags) →
          ((available_props props list).getD j default).queueCount < count)
        ∧ (∀ j, j < (available_props props list).length →
          ((available_props props list).getD j default).queueFlags &&& flags = flags →
          (∀ m, m < j → ((available_props props list).getD m default).queueFlags &&& flags ≠ flags) →
          ((available_props props list).getD j default).queueCount < count)) := by
  have hstrong := findIdx?_getD_spec
    (fun p => decide (p.queueFlags = flags)) (available_props props list)
  have hweak := findIdx?_getD_spec
    (fun p => decide (p.queueFlags &&& flags = flags)) (available_props props list)
  constructor
  · intro i newList hsome
    unfold addQueuesFlags at hsome
    cases hts : (find_queue_family_index_strong (available_props props list) flags).bind
        (fun i => if count ≤ ((available_props props list).getD i default).queueCount
          then some i else none) with
    | some i0 =>
      rw [hts] at hsome
      simp only [Option.some.injEq, Prod.mk.injEq] at hsome
      obtain ⟨rfl, rfl⟩ := hsome
      obtain ⟨hfind, hcnt⟩ := (tryIdx_some_iff _ _ count i0).mp hts
      obtain ⟨hi, hp, hmin⟩ := (hstrong.1 i0).mp hfind
      exact ⟨rfl, Or.inl ⟨hi, by simpa using hp,
        fun j hj => by simpa using hmin j hj, hcnt⟩⟩
    | none =>
      rw [hts] at hsome
      cases htw : (find_queue_family_index_weak (available_props props list) flags).bind
          (fun i => if count ≤ ((available_props props list).getD i default).queueCount
            then some i else none) with
      | none => rw [htw] at hsome; cases hsome
      | some i0 =>
        rw [htw] at hsome
        simp only [Option.some.injEq, Prod.mk.injEq] at hsome
        obtain ⟨rfl, rfl⟩ := hsome
        obtain ⟨hfind, hcnt⟩ := (tryIdx_some_iff _ _ count i0).mp htw
        obtain ⟨hi, hp, hmin⟩ := (hweak.1 i0).mp hfind
        exact ⟨rfl, Or.inr ⟨(tryIdx_strong_none_iff _ flags count).mp hts, hi,
          by simpa using hp, fun j hj => by simpa using hmin j hj, hcnt⟩⟩
  · unfold addQueuesFlags
    constructor
    · intro hnone
      cases hts : (find_queue_family_index_strong (available_props props list) flags).bind
          (fun i => if count ≤ ((available_props props list).getD i default).queueCount
            then some i else none) with
      | some i0 => rw [hts] at hnone; cases hnone
      | none =>
        rw [hts] at hnone
        cases htw : (find_queue_family_index_weak (available_props props list) flags).bind
            (fun i => if count ≤ ((available_props props list).getD i default).queueCount
              then some i else none) with
        | some i0 => rw [htw] at hnone; cases hnone
        | none =>
          exact ⟨(tryIdx_strong_none_iff _ flags count).mp hts,
            (tryIdx_weak_none_iff _ flags count).mp htw⟩
    · rintro ⟨hs, hw⟩
      rw [(tryIdx_strong_none_iff _ flags count).mpr hs,
        (tryIdx_weak_none_iff _ flags count).mpr hw]

/-- C4 counterexample to the claim as stated: the driver reports two
exactly-matching Compute families, the first with 1 queue and the second
with 2; requesting 2 Compute queues fails even though the second family is
an exact match with enough unreserved queues, because the source checks the
count only on the first match before falling back to the (identical) weak
match. -/
theorem C4_counterexample :
    addQueuesFlags [⟨2, 1⟩, ⟨2, 2⟩] [] 2 1 2 = none
    ∧ (([⟨2, 1⟩, ⟨2, 2⟩] : List QueueFamilyProperties).getD 1 default).queueFlags = 2
    ∧ 2 ≤ (([⟨2, 1⟩, ⟨2, 2⟩] : List QueueFamilyProperties).getD 1 default).queueCount
    ∧ (available_props [⟨2, 1⟩, ⟨2, 2⟩] []).getD 1 default = ⟨2, 2⟩ := by
  refine ⟨by decide, by decide, by decide, by decide⟩

/-- C4 witness: a successful capability add through the strong path. -/
theorem C4_add_queues_by_capability_witness :
    [(⟨0, 2, [⟨1⟩]⟩ : queue_family_info)] = addQueuesIdx [⟨2, 2⟩] [] 0 1 1
    ∧ ((available_props [⟨2, 2⟩] []).getD 0 default).queueFlags = 2 := by
  have h := (C4_add_queues_by_capability [⟨2, 2⟩] [] 2 1 1).1 0 [⟨0, 2, [⟨1⟩]⟩] (by decide)
  refine ⟨h.1, ?_⟩
  rcases h.2 with ⟨_, hp, _, _⟩ | ⟨_, _, _, _, _⟩
  · exact hp
  · decide

theorem mapAppend_apply (m : QMap) (k : Nat) (qs : List Queue) (j : Nat) :
    mapAppend m k qs j = if j = k then m j ++ qs else m j := rfl

theorem foldl_mapAppend_famQueues (list : List queue_family_info) :
    ∀ (m0 : QMap) (S : Nat),
      (list.foldl (fun m fam => mapAppend m fam.flags (famQueues fam)) m0) S
        = m0 S ++ ((list.filter (fun f => decide (f.flags = S))).map famQueues).flatten := by
  induction list with
  | nil => intro m0 S; simp
  | cons fam rest ih =>
    intro m0 S
    rw [List.foldl_cons, ih]
    by_cases h : fam.flags = S
    · rw [List.filter_cons_of_pos (by simpa using h)]
      simp only [List.map_cons, List.flatten_cons]
      rw [mapAppend_apply, if_pos h.symm, List.append_assoc]
    · rw [List.filter_cons_of_neg (by simpa using h),
        mapAppend_apply, if_neg (fun hc => h hc.symm)]

theorem pass1_eq (list : List queue_family_info) (S : Nat) :
    pass1 list S = ((list.filter (fun f => decide (f.flags = S))).map famQueues).flatten := by
  have := foldl_mapAppend_famQueues list (fun _ => []) S
  simpa [pass1] using this

theorem foldl_grows {β : Type} (g : QMap → β → QMap)
    (hg : ∀ m b S, ∃ t, g m b S = m S ++ t) (l : List β) :
    ∀ (m : QMap) (S : Nat), ∃ t, (l.foldl g m) S = m S ++ t := by
  induction l with
  | nil => intro m S; exact ⟨[], by simp⟩
  | cons b rest ih =>
    intro m S
    obtain ⟨t1, h1⟩ := hg m b S
    obtain ⟨t2, h2⟩ := ih (g m b) S
    exact ⟨t1 ++ t2, by rw [List.foldl_cons, h2, h1, List.append_assoc]⟩

theorem mapAppend_grows (m : QMap) (k : Nat) (qs : List Queue) (S : Nat) :
    ∃ t, mapAppend m k qs S = m S ++ t := by
  rw [mapAppend_apply]
  split
  · exact ⟨qs, rfl⟩
  · exact ⟨[], (List.append_nil _).symm⟩

theorem pushSubsetQueues_grows (m : QMap) (flags mask n S : Nat) :
    ∃ t, pushSubsetQueues m flags mask n S = m S ++ t :=
  foldl_grows _ (fun m qi S => mapAppend_grows m mask [getQueueIn m flags qi] S) (List.range n) m S

theorem pass2Step_grows (m : QMap) (fam : queue_family_info) (S : Nat) :
    ∃ t, pass2Step m fam S = m S ++ t :=
  foldl_grows _ (fun m mask S => pushSubsetQueues_grows m fam.flags mask fam.queues.length S)
    (subsetMasks fam.flags) m S

theorem buildQueueMap_grows (list : List queue_family_info) (S : Nat) :
    ∃ t, buildQueueMap list S = pass1 list S ++ t :=
  foldl_grows pass2Step (fun m fam S => pass2Step_grows m fam S) list (pass1 list) S

theorem and_eq_left_iff_testBit (a b : Nat) :
    a &&& b = a ↔ ∀ i, a.testBit i = true → b.testBit i = true := by
  constructor
  · intro h i hi
    have hcongr := congrArg (fun x => x.testBit i) h
    simp only [Nat.testBit_and, hi, Bool.true_and] at hcongr
    exact hcongr
  · intro h
    apply Nat.eq_of_testBit_eq
    intro i
    rw [Nat.testBit_and]
    cases ha : a.testBit i
    · simp
    · simp [h i ha]

theorem and_subset_trans {a b c : Nat} (h1 : a &&& b = a) (h2 : b &&& c = b) : a &&& c = a := by
  rw [and_eq_left_iff_testBit] at h1 h2 ⊢
  exact fun i hi => h2 i (h1 i hi)

theorem length_famQueues (fam : queue_family_info) :
    (famQueues fam).length = fam.queues.length := by
  simp [famQueues]

theorem mem_famQueues {q : Queue} {fam : queue_family_info} :
    q ∈ famQueues fam ↔ q.family_idx = fam.family_idx ∧ q.queue_idx < fam.queues.length := by
  simp only [famQueues, List.mem_map, List.mem_range]
  constructor
  · rintro ⟨qi, hqi, rfl⟩
    exact ⟨rfl, hqi⟩
  · rintro ⟨h1, h2⟩
    refine ⟨q.queue_idx, h2, ?_⟩
    obtain ⟨a, b⟩ := q
    simp only at h1
    rw [h1]

theorem separate_flags_subset (flags : Nat) : ∀ x ∈ separate_flags flags, x &&& flags = x := by
  intro x hx
  simp only [separate_flags, List.mem_filterMap, List.mem_range] at hx
  obtain ⟨bit, _, hbit⟩ := hx
  split at hbit
  · cases hbit
    rw [and_eq_left_iff_testBit]
    intro i hi
    rw [Nat.testBit_two_pow] at hi
    simp only [decide_eq_true_eq] at hi
    subst hi
    assumption
  · cases hbit

theorem permMask_fold_subset (F : Nat) (sep : List Nat) (hsep : ∀ i, sep.getD i 0 &&& F = 0 ∨ sep.getD i 0 &&& F = sep.getD i 0) :
    ∀ (l : List Nat) (acc : Nat) (p : Nat), acc &&& F = acc →
      (∀ i ∈ l, sep.getD i 0 &&& F = sep.getD i 0) →
      (l.foldl (fun mask i => if p.testBit i then mask ||| sep.getD i 0 else mask) acc) &&& F
        = l.foldl (fun mask i => if p.testBit i then mask ||| sep.getD i 0 else mask) acc := by
  intro l
  induction l with
  | nil => intro acc p hacc _; exact hacc
  | cons i rest ih =>
    intro acc p hacc hl
    rw [List.foldl_cons]
    refine ih _ p ?_ (fun j hj => hl j (by simp [hj]))
    split
    · rw [and_eq_left_iff_testBit]
      intro b hb
      rw [Nat.testBit_or] at hb
      rcases Bool.or_eq_true_iff.mp hb with h | h
      · exact (and_eq_left_iff_testBit acc F).mp hacc b h
      · exact (and_eq_left_iff_testBit _ F).mp (hl i (by simp)) b h
    · exact hacc

theorem subsetMasks_subset (F : Nat) : ∀ mask ∈ subsetMasks F, mask &&& F = mask := by
  intro mask hmask
  simp only [subsetMasks, List.mem_map] at hmask
  obtain ⟨p, _, rfl⟩ := hmask
  unfold permMask
  refine permMask_fold_subset F (separate_flags F) ?_ _ 0 p (by simp) ?_
  · intro i
    by_cases hi : i < (separate_flags F).length
    · refine Or.inr ?_
      refine separate_flags_subset F _ ?_
      rw [List.getD_eq_getElem?_getD, List.getElem?_eq_getElem hi, Option.getD_some]
      exact List.getElem_mem hi
    · rw [List.getD_eq_getElem?_getD, List.getElem?_eq_none (by omega)]
      simp
  · intro i hi
    by_cases hlt : i < (separate_flags F).length
    · refine separate_flags_subset F _ ?_
      rw [List.getD_eq_getElem?_getD, List.getElem?_eq_getElem hlt, Option.getD_some]
      exact List.getElem_mem hlt
    · rw [List.getD_eq_getElem?_getD, List.getElem?_eq_none (by omega)]
      simp

theorem map_invariant_pass1 (list : List queue_family_info) :
    map_invariant list (pass1 list) := by
  constructor
  · intro S q hq
    rw [pass1_eq] at hq
    simp only [List.mem_flatten, List.mem_map] at hq
    obtain ⟨l, ⟨fam, hfam, rfl⟩, hql⟩ := hq
    have hmem := List.mem_filter.mp hfam
    have hflags : fam.flags = S := by simpa using hmem.2
    exact ⟨fam, hmem.1, (mem_famQueues.mp hql).1, by rw [hflags, Nat.and_self]⟩
  · intro fam hfam
    rw [pass1_eq]
    have hfilter : fam ∈ list.filter (fun f => decide (f.flags = fam.flags)) :=
      List.mem_filter.mpr ⟨hfam, by simp⟩
    have hmem : (famQueues fam).length
        ∈ ((list.filter (fun f => decide (f.flags = fam.flags))).map famQueues).map
            List.length :=
      List.mem_map.mpr ⟨famQueues fam, List.mem_map.mpr ⟨fam, hfilter, rfl⟩, rfl⟩
    have := List.single_le_sum (l := ((list.filter
        (fun f => decide (f.flags = fam.flags))).map famQueues).map List.length)
      (fun x _ => Nat.zero_le x) _ hmem
    have hlen := length_famQueues fam
    rw [List.length_flatten]
    omega

theorem push_preserves_invariant (list : List queue_family_info) (fam : queue_family_info)
    (hfam : fam ∈ list) (mask : Nat) (hmask : mask &&& fam.flags = mask) (m : QMap)
    (hInv : map_invariant list m) (qi : Nat) (hqi : qi < fam.queues.length) :
    map_invariant list (mapAppend m mask [getQueueIn m fam.flags qi]) := by
  constructor
  · intro S q hq
    rw [mapAppend_apply] at hq
    split at hq
    · rcases List.mem_append.mp hq with hmem | hmem
      · exact hInv.1 S q hmem
      · have hqeq : q = getQueueIn m fam.flags qi := by simpa using hmem
        subst hqeq
        have hbound : qi < (m fam.flags).length :=
          Nat.lt_of_lt_of_le hqi (hInv.2 fam hfam)
        have hget : getQueueIn m fam.flags qi ∈ m fam.flags := by
          rw [getQueueIn, List.getD_eq_getElem?_getD, List.getElem?_eq_getElem hbound,
            Option.getD_some]
          exact List.getElem_mem hbound
        obtain ⟨fam2, hfam2, hidx, hsub⟩ := hInv.1 fam.flags _ hget
        subst_vars
        exact ⟨fam2, hfam2, hidx, and_subset_trans hmask hsub⟩
    · exact hInv.1 S q hq
  · intro g hg
    rw [mapAppend_apply]
    split
    · rw [List.length_append]
      have := hInv.2 g hg
      omega
    · exact hInv.2 g hg

theorem foldl_push_preserves_invariant (list : List queue_family_info)
    (fam : queue_family_info) (hfam : fam ∈ list) (mask : Nat)
    (hmask : mask &&& fam.flags = mask) :
    ∀ (idxs : List Nat), (∀ qi ∈ idxs, qi < fam.queues.length) → ∀ m, map_invariant list m →
      map_invariant list
        (idxs.foldl (fun m2 qi => mapAppend m2 mask [getQueueIn m2 fam.flags qi]) m) := by
  intro idxs
  induction idxs with
  | nil => intro _ m hm; exact hm
  | cons qi rest ih =>
    intro hidxs m hm
    rw [List.foldl_cons]
    exact ih (fun j hj => hidxs j (by simp [hj])) _
      (push_preserves_invariant list fam hfam mask hmask m hm qi (hidxs qi (by simp)))

theorem pass2Step_preserves_invariant (list : List queue_family_info)
    (fam : queue_family_info) (hfam : fam ∈ list) :
    ∀ m, map_invariant list m → map_invariant list (pass2Step m fam) := by
  have hgen : ∀ (masks : List Nat), (∀ mask ∈ masks, mask &&& fam.flags = mask) →
      ∀ m, map_invariant list m →
      map_invariant list (masks.foldl
        (fun m2 mask => pushSubsetQueues m2 fam.flags mask fam.queues.length) m) := by
    intro masks
    induction masks with
    | nil => intro _ m hm; exact hm
    | cons mask rest ih =>
      intro hmasks m hm
      rw [List.foldl_cons]
      refine ih (fun j hj => hmasks j (by simp [hj])) _ ?_
      exact foldl_push_preserves_invariant list fam hfam mask (hmasks mask (by simp))
        (List.range fam.queues.length) (fun qi hqi => List.mem_range.mp hqi) m hm
  intro m hm
  exact hgen (subsetMasks fam.flags) (subsetMasks_subset fam.flags) m hm

theorem buildQueueMap_invariant (list : List queue_family_info) :
    map_invariant list (buildQueueMap list) := by
  have hgen : ∀ (l : List queue_family_info), (∀ fam ∈ l, fam ∈ list) →
      ∀ m, map_invariant list m → map_invariant list (l.foldl pass2Step m) := by
    intro l
    induction l with
    | nil => intro _ m hm; exact hm
    | cons fam rest ih =>
      intro hl m hm
      rw [List.foldl_cons]
      exact ih (fun g hg => hl g (by simp [hg])) _
        (pass2Step_preserves_invariant list fam (hl fam (by simp)) m hm)
  exact hgen list (fun _ h => h) (pass1 list) (map_invariant_pass1 list)

/-- C1: every entry of `map[flags]` is a queue of a requested family whose
capability flags contain `flags`; whenever the request list has a family
with exactly these flags (and, as queue validation guarantees at device
creation, no family has an empty queue list), `map[flags][0]` is a queue of
such an exactly-matching family; and `get_queue(flags, i)` returns the i-th
entry of `map[flags]`. -/
theorem C1_capability_map (list : List queue_family_info)
    (hne : ∀ fam ∈ list, fam.queues ≠ []) (f : Nat) :
    (∀ q ∈ buildQueueMap list f,
      ∃ fam ∈ list, q.family_idx = fam.family_idx ∧ f &&& fam.flags = f)
    ∧ ((∃ fam ∈ list, fam.flags = f) →
        buildQueueMap list f ≠ []
        ∧ ∃ fam ∈ list, fam.flags = f
            ∧ (buildQueueMap list f).getD 0 default = ⟨fam.family_idx, 0⟩)
    ∧ ∀ i, getQueue list f i = (buildQueueMap list f).getD i default := by
  refine ⟨fun q hq => (buildQueueMap_invariant list).1 f q hq, ?_, fun i => rfl⟩
  rintro ⟨fam0, hfam0, hflags0⟩
  obtain ⟨t, ht⟩ := buildQueueMap_grows list f
  have hfilter : fam0 ∈ list.filter (fun g => decide (g.flags = f)) :=
    List.mem_filter.mpr ⟨hfam0, by simpa using hflags0⟩
  cases hfl : list.filter (fun g => decide (g.flags = f)) with
  | nil => rw [hfl] at hfilter; cases hfilter
  | cons g rest =>
    have hgmem : g ∈ list.filter (fun g => decide (g.flags = f)) := by
      rw [hfl]; exact List.mem_cons_self g rest
    have hgl := List.mem_filter.mp hgmem
    have hgflags : g.flags = f := by simpa using hgl.2
    obtain ⟨n, hn⟩ : ∃ n, g.queues.length = n + 1 := by
      cases hq : g.queues with
      | nil => exact absurd hq (hne g hgl.1)
      | cons a b => exact ⟨b.length, by simp [hq]⟩
    have hfq : famQueues g
        = (⟨g.family_idx, 0⟩ : Queue) :: (List.range n).map
            (fun qi => (⟨g.family_idx, qi + 1⟩ : Queue)) := by
      rw [famQueues, hn, List.range_succ_eq_map, List.map_cons, List.map_map]
      rfl
    have hmap : buildQueueMap list f
        = (⟨g.family_idx, 0⟩ : Queue) :: ((List.range n).map
            (fun qi => (⟨g.family_idx, qi + 1⟩ : Queue))
          ++ ((rest.map famQueues).flatten ++ t)) := by
      rw [ht, pass1_eq, hfl, List.map_cons, List.flatten_cons, hfq]
      simp [List.append_assoc]
    exact ⟨by rw [hmap]; simp, g, hgl.1, hgflags, by rw [hmap]; rfl⟩

/-- C1 witness: one Graphics|Compute|Transfer family with a single queue;
the map entry for the exact flags 7 is non-empty and headed by that
family's queue 0. -/
theorem C1_capability_map_witness :
    buildQueueMap [(⟨0, 7, [⟨1⟩]⟩ : queue_family_info)] 7 ≠ []
    ∧ ∃ fam ∈ [(⟨0, 7, [⟨1⟩]⟩ : queue_family_info)], fam.flags = 7
        ∧ (buildQueueMap [(⟨0, 7, [⟨1⟩]⟩ : queue_family_info)] 7).getD 0 default
            = ⟨fam.family_idx, 0⟩ :=
  (C1_capability_map [⟨0, 7, [⟨1⟩]⟩] (by simp) 7).2.1
    ⟨⟨0, 7, [⟨1⟩]⟩, by simp, rfl⟩

theorem filterMap_if_eq_filter_map {α β : Type} (c : α → Bool) (g : α → β) (l : List α) :
    l.filterMap (fun b => if c b then some (g b) else none) = (l.filter c).map g := by
  induction l with
  | nil => rfl
  | cons x rest ih =>
    by_cases h : c x
    · rw [List.filterMap_cons, List.filter_cons_of_pos h, List.map_cons, if_pos h, ih]
    · rw [List.filterMap_cons, List.filter_cons_of_neg h, if_neg h, ih]

theorem separate_flags_eq (F : Nat) : separate_flags F = (bits_of F).map (2 ^ ·) :=
  filterMap_if_eq_filter_map (fun b => F.testBit b) (2 ^ ·) (List.range 32)

theorem bits_of_nodup (F : Nat) : (bits_of F).Nodup :=
  (List.nodup_range 32).filter _

theorem mem_bits_of {F b : Nat} (hF : F < 2 ^ 32) : b ∈ bits_of F ↔ F.testBit b = true := by
  simp only [bits_of, List.mem_filter, List.mem_range]
  constructor
  · exact fun h => h.2
  · intro h
    refine ⟨?_, h⟩
    have h1 : 2 ^ b ≤ F := Nat.testBit_implies_ge h
    by_contra hb
    have : 2 ^ 32 ≤ 2 ^ b := Nat.pow_le_pow_right (by norm_num) (by omega)
    omega

theorem bits_of_length_le (F : Nat) : (bits_of F).length ≤ 32 :=
  le_trans (List.length_filter_le _ _) (by simp)

theorem bits_of_length_pos {F : Nat} (hF : F < 2 ^ 32) (hne : F ≠ 0) :
    1 ≤ (bits_of F).length := by
  obtain ⟨b, hb⟩ := Nat.ne_zero_implies_bit_true hne
  have : b ∈ bits_of F := (mem_bits_of hF).mpr hb
  have := List.length_pos.mpr (List.ne_nil_of_mem this)
  omega

theorem foldl_or_testBit (c : Nat → Bool) (f : Nat → Nat) (l : List Nat) :
    ∀ (acc b : Nat),
      ((l.foldl (fun mask i => if c i then mask ||| f i else mask) acc).testBit b = true
        ↔ acc.testBit b = true ∨ ∃ i ∈ l, c i = true ∧ (f i).testBit b = true) := by
  induction l with
  | nil => simp
  | cons i rest ih =>
    intro acc b
    rw [List.foldl_cons]
    by_cases h : c i
    · rw [if_pos h, ih]
      simp only [Nat.testBit_or]
      constructor
      · rintro (hor | hex)
        · rcases Bool.or_eq_true_iff.mp hor with ha | hf
          · exact Or.inl ha
          · exact Or.inr ⟨i, by simp, h, hf⟩
        · obtain ⟨j, hj, hc, hf⟩ := hex
          exact Or.inr ⟨j, by simp [hj], hc, hf⟩
      · rintro (ha | ⟨j, hj, hc, hf⟩)
        · exact Or.inl (by simp [ha])
        · rcases List.mem_cons.mp hj with rfl | hjr
          · exact Or.inl (by simp [hf])
          · exact Or.inr ⟨j, hjr, hc, hf⟩
    · rw [if_neg h, ih]
      constructor
      · rintro (ha | ⟨j, hj, hc, hf⟩)
        · exact Or.inl ha
        · exact Or.inr ⟨j, by simp [hj], hc, hf⟩
      · rintro (ha | ⟨j, hj, hc, hf⟩)
        · exact Or.inl ha
        · rcases List.mem_cons.mp hj with rfl | hjr
          · exact absurd hc h
          · exact Or.inr ⟨j, hjr, hc, hf⟩

theorem permMask_testBit (bits : List Nat) (p b : Nat) :
    (permMask (bits.map (2 ^ ·)) p).testBit b = true
      ↔ ∃ i, i < bits.length ∧ p.testBit i = true ∧ bits.getD i 0 = b := by
  unfold permMask
  rw [List.length_map,
    foldl_or_testBit (fun i => p.testBit i) (fun i => (bits.map (2 ^ ·)).getD i 0)
      (List.range bits.length) 0 b]
  simp only [Nat.zero_testBit, Bool.false_eq_true, false_or, List.mem_range]
  constructor
  · rintro ⟨i, hi, hp, hbit⟩
    refine ⟨i, hi, hp, ?_⟩
    rw [List.getD_eq_getElem?_getD, List.getElem?_map, List.getElem?_eq_getElem hi] at hbit
    simp only [Option.map_some', Option.getD_some] at hbit
    rw [Nat.testBit_two_pow] at hbit
    simp only [decide_eq_true_eq] at hbit
    rw [List.getD_eq_getElem?_getD, List.getElem?_eq_getElem hi, Option.getD_some]
    exact hbit
  · rintro ⟨i, hi, hp, hbit⟩
    refine ⟨i, hi, hp, ?_⟩
    rw [List.getD_eq_getElem?_getD, List.getElem?_map, List.getElem?_eq_getElem hi]
    simp only [Option.map_some', Option.getD_some]
    rw [List.getD_eq_getElem?_getD, List.getElem?_eq_getElem hi, Option.getD_some] at hbit
    rw [hbit, Nat.testBit_two_pow]
    simp

theorem perm_index_testBit (bits : List Nat) (S i : Nat) :
    (perm_index bits S).testBit i = true
      ↔ i < bits.length ∧ S.testBit (bits.getD i 0) = true := by
  unfold perm_index
  rw [foldl_or_testBit (fun i => S.testBit (bits.getD i 0)) (fun i => 2 ^ i)
    (List.range bits.length) 0 i]
  simp only [Nat.zero_testBit, Bool.false_eq_true, false_or, List.mem_range]
  constructor
  · rintro ⟨j, hj, hc, hf⟩
    rw [Nat.testBit_two_pow] at hf
    simp only [decide_eq_true_eq] at hf
    subst hf
    exact ⟨hj, hc⟩
  · rintro ⟨hi, hc⟩
    refine ⟨i, hi, hc, ?_⟩
    rw [Nat.testBit_two_pow]
    simp

theorem perm_index_lt (bits : List Nat) (S : Nat) :
    perm_index bits S < 2 ^ bits.length := by
  apply Nat.lt_pow_two_of_testBit
  intro i hi
  cases h : (perm_index bits S).testBit i
  · rfl
  · have := (perm_index_testBit bits S i).mp h
    omega

theorem nodup_getD_inj (bits : List Nat) (hnd : bits.Nodup) {i j : Nat}
    (hi : i < bits.length) (hj : j < bits.length)
    (h : bits.getD i 0 = bits.getD j 0) : i = j := by
  rw [List.getD_eq_getElem?_getD, List.getElem?_eq_getElem hi, Option.getD_some,
    List.getD_eq_getElem?_getD, List.getElem?_eq_getElem hj, Option.getD_some] at h
  exact (List.Nodup.getElem_inj_iff hnd).mp h

theorem getD_mem_of_lt (bits : List Nat) {i : Nat} (hi : i < bits.length) :
    bits.getD i 0 ∈ bits := by
  rw [List.getD_eq_getElem?_getD, List.getElem?_eq_getElem hi, Option.getD_some]
  exact List.getElem_mem hi

theorem permMask_perm_index (F S : Nat) (hF : F < 2 ^ 32) (hsub : S &&& F = S) :
    permMask ((bits_of F).map (2 ^ ·)) (perm_index (bits_of F) S) = S := by
  apply Nat.eq_of_testBit_eq
  intro b
  cases hSb : S.testBit b with
  | true =>
    have hbF : F.testBit b = true := (and_eq_left_iff_testBit S F).mp hsub b hSb
    have hmem : b ∈ bits_of F := (mem_bits_of hF).mpr hbF
    obtain ⟨i, hi, hieq⟩ := List.getElem_of_mem hmem
    have hgetD : (bits_of F).getD i 0 = b := by
      rw [List.getD_eq_getElem?_getD, List.getElem?_eq_getElem hi, Option.getD_some, hieq]
    have : (permMask ((bits_of F).map (2 ^ ·)) (perm_index (bits_of F) S)).testBit b
        = true := by
      refine (permMask_testBit _ _ _).mpr ⟨i, hi, ?_, hgetD⟩
      exact (perm_index_testBit _ _ _).mpr ⟨hi, by rw [hgetD]; exact hSb⟩
    rw [this]
  | false =>
    rw [Bool.eq_false_iff]
    intro hc
    obtain ⟨i, hi, hp, hbit⟩ := (permMask_testBit _ _ _).mp hc
    obtain ⟨_, hS⟩ := (perm_index_testBit _ _ _).mp hp
    rw [hbit] at hS
    rw [hS] at hSb
    cases hSb

theorem perm_index_ne_zero (F S : Nat) (hF : F < 2 ^ 32) (hsub : S &&& F = S)
    (hS : S ≠ 0) : perm_index (bits_of F) S ≠ 0 := by
  obtain ⟨b, hb⟩ := Nat.ne_zero_implies_bit_true hS
  have hbF : F.testBit b = true := (and_eq_left_iff_testBit S F).mp hsub b hb
  obtain ⟨i, hi, hieq⟩ := List.getElem_of_mem ((mem_bits_of hF).mpr hbF)
  have hgetD : (bits_of F).getD i 0 = b := by
    rw [List.getD_eq_getElem?_getD, List.getElem?_eq_getElem hi, Option.getD_some, hieq]
  intro h0
  have := (perm_index_testBit (bits_of F) S i).mpr ⟨hi, by rw [hgetD]; exact hb⟩
  rw [h0, Nat.zero_testBit] at this
  cases this

theorem perm_index_ne_top (F S : Nat) (hF : F < 2 ^ 32) (hsub : S &&& F = S)
    (hne : S ≠ F) : perm_index (bits_of F) S ≠ 2 ^ (bits_of F).length - 1 := by
  intro htop
  apply hne
  apply Nat.eq_of_testBit_eq
  intro b
  cases hFb : F.testBit b with
  | true =>
    obtain ⟨i, hi, hieq⟩ := List.getElem_of_mem ((mem_bits_of hF).mpr hFb)
    have hgetD : (bits_of F).getD i 0 = b := by
      rw [List.getD_eq_getElem?_getD, List.getElem?_eq_getElem hi, Option.getD_some, hieq]
    have hpi : (perm_index (bits_of F) S).testBit i = true := by
      rw [htop, Nat.testBit_two_pow_sub_one]
      simpa using hi
    have := ((perm_index_testBit (bits_of F) S i).mp hpi).2
    rw [hgetD] at this
    rw [this]
  | false =>
    rw [Bool.eq_false_iff]
    intro hSb
    have := (and_eq_left_iff_testBit S F).mp hsub b hSb
    rw [hFb] at this
    cases this

theorem permMask_inj (bits : List Nat) (hnd : bits.Nodup) (p q : Nat)
    (hp : p < 2 ^ bits.length) (hq : q < 2 ^ bits.length)
    (h : permMask (bits.map (2 ^ ·)) p = permMask (bits.map (2 ^ ·)) q) : p = q := by
  apply Nat.eq_of_testBit_eq
  intro i
  by_cases hi : i < bits.length
  · have hiff : ∀ r : Nat,
        ((permMask (bits.map (2 ^ ·)) r).testBit (bits.getD i 0) = true
          ↔ r.testBit i = true) := by
      intro r
      rw [permMask_testBit]
      constructor
      · rintro ⟨j, hj, hr, hbit⟩
        have := nodup_getD_inj bits hnd hj hi hbit
        subst this
        exact hr
      · intro hr
        exact ⟨i, hi, hr, rfl⟩
    have h1 := hiff p
    have h2 := hiff q
    rw [h] at h1
    have hpq : p.testBit i = true ↔ q.testBit i = true := h1.symm.trans h2
    cases hpi : p.testBit i with
    | true => exact (hpq.mp hpi).symm
    | false =>
      cases hqi : q.testBit i with
      | true =>
        rw [hpq.mpr hqi] at hpi
        cases hpi
      | false => rfl
  · rw [Nat.testBit_lt_two_pow
        (lt_of_lt_of_le hp (Nat.pow_le_pow_right (by norm_num) (by omega))),
      Nat.testBit_lt_two_pow
        (lt_of_lt_of_le hq (Nat.pow_le_pow_right (by norm_num) (by omega)))]

theorem permCount_eq (k : Nat) (hk : 1 ≤ k) (hk32 : k ≤ 32) : permCount k = 2 ^ k - 2 := by
  unfold permCount
  have h1 : 2 ≤ 2 ^ k := by
    calc 2 = 2 ^ 1 := by norm_num
    _ ≤ 2 ^ k := Nat.pow_le_pow_right (by norm_num) hk
  have h2 : 2 ^ k ≤ 2 ^ 32 := Nat.pow_le_pow_right (by norm_num) hk32
  have h3 : (2 : Nat) ^ 32 < 2 ^ 64 := by norm_num
  have h4 : 2 ^ 64 + 2 ^ k - 2 = 2 ^ 64 + (2 ^ k - 2) := by omega
  rw [h4, Nat.add_mod_left, Nat.mod_eq_of_lt (by omega)]

theorem mem_permList (k x : Nat) : x ∈ permList k ↔ 1 ≤ x ∧ x ≤ permCount k := by
  unfold permList
  simp only [List.mem_reverse, List.mem_map, List.mem_range]
  constructor
  · rintro ⟨j, hj, rfl⟩
    omega
  · rintro ⟨h1, h2⟩
    exact ⟨x - 1, by omega, by omega⟩

theorem permList_nodup (k : Nat) : (permList k).Nodup := by
  unfold permList
  rw [List.nodup_reverse]
  exact List.Nodup.map (fun a b h => by omega) (List.nodup_range _)

theorem countP_eq_one_of_unique {α : Type} (c : α → Bool) :
    ∀ (l : List α) (x : α), l.Nodup → x ∈ l → c x = true →
      (∀ y ∈ l, c y = true → y = x) → l.countP c = 1 := by
  intro l
  induction l with
  | nil => intro x _ hx; cases hx
  | cons h t ih =>
    intro x hnd hx hcx huniq
    rcases List.mem_cons.mp hx with rfl | hxt
    · rw [List.countP_cons, if_pos hcx]
      have ht0 : t.countP c = 0 := by
        rw [List.countP_eq_zero]
        intro y hy hcy
        have := huniq y (by simp [hy]) hcy
        subst this
        exact (List.nodup_cons.mp hnd).1 hy
      omega
    · have hhx : h ≠ x := by
        intro hh
        subst hh
        exact (List.nodup_cons.mp hnd).1 hxt
      rw [List.countP_cons]
      have hch : c h = false := by
        cases hch : c h with
        | false => rfl
        | true => exact absurd (huniq h (by simp) hch) hhx
      rw [hch]
      simp only [if_neg (by simp : ¬(false = true)), Nat.add_zero]
      exact ih x (List.nodup_cons.mp hnd).2 hxt hcx
        (fun y hy hcy => huniq y (by simp [hy]) hcy)

theorem count_subsetMasks (F S : Nat) (hF : F < 2 ^ 32) (hS : S ≠ 0) :
    (subsetMasks F).count S = if S &&& F = S ∧ S ≠ F then 1 else 0 := by
  unfold subsetMasks
  rw [separate_flags_eq]
  have hcnt : (List.map (permMask ((bits_of F).map (2 ^ ·)))
        (permList ((bits_of F).map (2 ^ ·)).length)).count S
      = (permList ((bits_of F).map (2 ^ ·)).length).countP
          (fun p => permMask ((bits_of F).map (2 ^ ·)) p == S) := by
    rw [List.count, List.countP_map]
    rfl
  rw [hcnt, List.length_map]
  by_cases hcond : S &&& F = S ∧ S ≠ F
  · rw [if_pos hcond]
    have hFne : F ≠ 0 := by
      intro h0
      subst h0
      apply hS
      rw [← hcond.1]
      simp
    have hk1 : 1 ≤ (bits_of F).length := bits_of_length_pos hF hFne
    have hk32 : (bits_of F).length ≤ 32 := bits_of_length_le F
    have hpc := permCount_eq (bits_of F).length hk1 hk32
    have h2k : 2 ≤ 2 ^ (bits_of F).length := by
      calc 2 = 2 ^ 1 := by norm_num
      _ ≤ _ := Nat.pow_le_pow_right (by norm_num) hk1
    have hx := permMask_perm_index F S hF hcond.1
    have hxlt := perm_index_lt (bits_of F) S
    have hxne0 := perm_index_ne_zero F S hF hcond.1 hS
    have hxnetop := perm_index_ne_top F S hF hcond.1 hcond.2
    refine countP_eq_one_of_unique _ _ (perm_index (bits_of F) S) (permList_nodup _) ?_ ?_ ?_
    · rw [mem_permList, hpc]
      omega
    · rw [beq_iff_eq]
      exact hx
    · intro y hy hcy
      rw [beq_iff_eq] at hcy
      have hyle := (mem_permList _ _).mp hy
      rw [hpc] at hyle
      exact permMask_inj (bits_of F) (bits_of_nodup F) y _ (by omega) hxlt (hcy.trans hx.symm)
  · rw [if_neg hcond]
    rw [List.countP_eq_zero]
    intro p hp hc
    rw [beq_iff_eq] at hc
    have hsub : S &&& F = S := by
      rw [← hc]
      refine subsetMasks_subset F _ ?_
      rw [subsetMasks, separate_flags_eq, List.length_map]
      exact List.mem_map.mpr ⟨p, hp, rfl⟩
    have hSF : S = F := by
      by_contra hne
      exact hcond ⟨hsub, hne⟩
    subst hSF
    have hk1 : 1 ≤ (bits_of S).length := bits_of_length_pos hF hS
    have hk32 : (bits_of S).length ≤ 32 := bits_of_length_le S
    have hall : ∀ i, i < (bits_of S).length → p.testBit i = true := by
      intro i hi
      have hbF : S.testBit ((bits_of S).getD i 0) = true :=
        (mem_bits_of hF).mp (getD_mem_of_lt _ hi)
      have hmask : (permMask ((bits_of S).map (2 ^ ·)) p).testBit
          ((bits_of S).getD i 0) = true := by
        rw [hc]
        exact hbF
      obtain ⟨j, hj, hpj, hbit⟩ := (permMask_testBit _ _ _).mp hmask
      have := nodup_getD_inj (bits_of S) (bits_of_nodup S) hj hi hbit
      subst this
      exact hpj
    have hge : 2 ^ (bits_of S).length - 1 ≤ p := by
      have hsubp : (2 ^ (bits_of S).length - 1) &&& p = 2 ^ (bits_of S).length - 1 := by
        rw [and_eq_left_iff_testBit]
        intro i hi
        rw [Nat.testBit_two_pow_sub_one] at hi
        simp only [decide_eq_true_eq] at hi
        exact hall i hi
      calc 2 ^ (bits_of S).length - 1
          = (2 ^ (bits_of S).length - 1) &&& p := hsubp.symm
      _ ≤ p := Nat.and_le_right
    have hple := ((mem_permList _ _).mp hp).2
    rw [permCount_eq (bits_of S).length hk1 hk32] at hple
    have h2k : 2 ≤ 2 ^ (bits_of S).length := by
      calc 2 = 2 ^ 1 := by norm_num
      _ ≤ _ := Nat.pow_le_pow_right (by norm_num) hk1
    omega

theorem getD_append_lt (l1 l2 : List Queue) (n : Nat) (h : n < l1.length) :
    (l1 ++ l2).getD n default = l1.getD n default := by
  rw [List.getD_eq_getElem?_getD, List.getD_eq_getElem?_getD, List.getElem?_append_left h]

theorem pushSubsetQueues_collapse (flags mask : Nat) :
    ∀ (n : Nat) (m : QMap) (pref t : List Queue),
      m flags = pref ++ t → n ≤ pref.length →
      pushSubsetQueues m flags mask n = mapAppend m mask (pref.take n) := by
  intro n
  induction n with
  | zero =>
    intro m pref t hpref hn
    funext j
    rw [pushSubsetQueues, List.range_zero, List.foldl_nil, mapAppend_apply, List.take_zero]
    split <;> simp
  | succ n ih =>
    intro m pref t hpref hn
    have hstep : pushSubsetQueues m flags mask (n + 1)
        = mapAppend (pushSubsetQueues m flags mask n) mask
            [getQueueIn (pushSubsetQueues m flags mask n) flags n] := by
      unfold pushSubsetQueues
      rw [List.range_succ, List.foldl_append, List.foldl_cons, List.foldl_nil]
    rw [hstep, ih m pref t hpref (by omega)]
    have hget : getQueueIn (mapAppend m mask (pref.take n)) flags n = pref.getD n default := by
      rw [getQueueIn, mapAppend_apply]
      split
    -- either way the prefix `pref` is untouched at indices < pref.length
      · rw [hpref, List.append_assoc]
        exact getD_append_lt pref _ n (by omega)
      · rw [hpref]
        exact getD_append_lt pref _ n (by omega)
    rw [hget]
    funext j
    rw [mapAppend_apply, mapAppend_apply, mapAppend_apply]
    by_cases hj : j = mask
    · rw [if_pos hj, if_pos hj, if_pos hj, List.append_assoc]
      congr 1
      rw [List.take_succ]
      congr 1
      rw [List.getElem?_eq_getElem (show n < pref.length by omega)]
      rw [List.getD_eq_getElem?_getD, List.getElem?_eq_getElem (show n < pref.length by omega),
        Option.getD_some]
      rfl
    · rw [if_neg hj, if_neg hj, if_neg hj]

theorem pass2Step_collapse (fam : queue_family_info) :
    ∀ (masks : List Nat) (m : QMap) (t : List Queue), m fam.flags = famQueues fam ++ t →
      masks.foldl (fun m2 mask => pushSubsetQueues m2 fam.flags mask fam.queues.length) m
        = masks.foldl (fun m2 mask => mapAppend m2 mask (famQueues fam)) m := by
  intro masks
  induction masks with
  | nil => intro m t _; rfl
  | cons mask rest ih =>
    intro m t hpref
    rw [List.foldl_cons, List.foldl_cons]
    have hn : fam.queues.length ≤ (famQueues fam).length := by
      rw [length_famQueues]
    have hcol := pushSubsetQueues_collapse fam.flags mask fam.queues.length m
      (famQueues fam) t hpref hn
    have htake : (famQueues fam).take fam.queues.length = famQueues fam :=
      List.take_of_length_le (by rw [length_famQueues])
    rw [htake] at hcol
    rw [hcol]
    by_cases hfm : fam.flags = mask
    · exact ih _ (t ++ famQueues fam)
        (by rw [mapAppend_apply, if_pos hfm, hpref, List.append_assoc])
    · exact ih _ t (by rw [mapAppend_apply, if_neg hfm, hpref])

theorem foldl_mapAppend_masks (qs : List Queue) :
    ∀ (masks : List Nat) (m : QMap) (S : Nat),
      (masks.foldl (fun m2 mask => mapAppend m2 mask qs) m) S
        = m S ++ (List.replicate (masks.count S) qs).flatten := by
  intro masks
  induction masks with
  | nil => intro m S; simp
  | cons mask rest ih =>
    intro m S
    rw [List.foldl_cons, ih]
    by_cases h : S = mask
    · subst h
      rw [mapAppend_apply, if_pos rfl, List.count_cons_self, List.replicate_succ,
        List.flatten_cons, List.append_assoc]
    · rw [mapAppend_apply, if_neg h, List.count_cons_of_ne h]

theorem filter_flags_singleton (list : List queue_family_info)
    (hfl : list.Pairwise (fun a b => a.flags ≠ b.flags)) (fam : queue_family_info)
    (hfam : fam ∈ list) :
    list.filter (fun g => decide (g.flags = fam.flags)) = [fam] := by
  induction list with
  | nil => cases hfam
  | cons a rest ih =>
    rcases List.mem_cons.mp hfam with rfl | hmem
    · rw [List.filter_cons_of_pos (by simp)]
      have hrest : rest.filter (fun g => decide (g.flags = fam.flags)) = [] := by
        rw [List.filter_eq_nil_iff]
        intro g hg
        simp only [decide_eq_true_eq]
        exact fun hc => (List.pairwise_cons.mp hfl).1 g hg hc.symm
      rw [hrest]
    · have hne : a.flags ≠ fam.flags := (List.pairwise_cons.mp hfl).1 fam hmem
      rw [List.filter_cons_of_neg (by simpa using hne)]
      exact ih (List.pairwise_cons.mp hfl).2 hmem

theorem buildQueueMap_decomp (list : List queue_family_info)
    (hfl : list.Pairwise (fun a b => a.flags ≠ b.flags)) (S : Nat) :
    buildQueueMap list S = pass1 list S
      ++ (list.map (fun fam =>
            (List.replicate ((subsetMasks fam.flags).count S) (famQueues fam)).flatten)).flatten := by
  have hgen : ∀ (l : List queue_family_info),
      (∀ fam ∈ l, list.filter (fun g => decide (g.flags = fam.flags)) = [fam]) →
      ∀ m : QMap, (∀ T, ∃ t, m T = pass1 list T ++ t) →
      (l.foldl pass2Step m) S
        = m S ++ (l.map (fun fam =>
            (List.replicate ((subsetMasks fam.flags).count S) (famQueues fam)).flatten)).flatten := by
    intro l
    induction l with
    | nil => intro _ m _; simp
    | cons fam rest ih =>
      intro hl m hm
      rw [List.foldl_cons]
      have hsingle := hl fam (by simp)
      obtain ⟨t0, ht0⟩ := hm fam.flags
      have hpass1fam : pass1 list fam.flags = famQueues fam := by
        rw [pass1_eq, hsingle]
        simp
      have hpref : m fam.flags = famQueues fam ++ t0 := by
        rw [ht0, hpass1fam]
      have hcol : pass2Step m fam
          = (subsetMasks fam.flags).foldl
              (fun m2 mask => mapAppend m2 mask (famQueues fam)) m := by
        unfold pass2Step
        exact pass2Step_collapse fam (subsetMasks fam.flags) m t0 hpref
      rw [hcol]
      have hm2val : ∀ T, ((subsetMasks fam.flags).foldl
            (fun m2 mask => mapAppend m2 mask (famQueues fam)) m) T
          = m T ++ (List.replicate ((subsetMasks fam.flags).count T) (famQueues fam)).flatten :=
        fun T => foldl_mapAppend_masks (famQueues fam) (subsetMasks fam.flags) m T
      rw [ih (fun g hg => hl g (by simp [hg])) _ (fun T => by
        obtain ⟨t1, ht1⟩ := hm T
        exact ⟨t1 ++ (List.replicate ((subsetMasks fam.flags).count T) (famQueues fam)).flatten,
          by rw [hm2val T, ht1, List.append_assoc]⟩)]
      rw [hm2val S, List.map_cons, List.flatten_cons, List.append_assoc]
  have := hgen list (fun fam hfam => filter_flags_singleton list hfl fam hfam) (pass1 list)
    (fun T => ⟨[], by simp⟩)
  rw [buildQueueMap]
  exact this

theorem count_flatten_replicate (q : Queue) (c : Nat) (qs : List Queue) :
    ((List.replicate c qs).flatten).count q = c * qs.count q := by
  induction c with
  | zero => simp
  | succ c ih =>
    rw [List.replicate_succ, List.flatten_cons, List.count_append, ih]
    ring

theorem count_famQueues (fam : queue_family_info) (a b : Nat) :
    (famQueues fam).count ⟨a, b⟩
      = if a = fam.family_idx ∧ b < fam.queues.length then 1 else 0 := by
  unfold famQueues
  rw [List.count, List.countP_map]
  by_cases ha : a = fam.family_idx
  · by_cases hb : b < fam.queues.length
    · rw [if_pos ⟨ha, hb⟩]
      refine countP_eq_one_of_unique _ _ b (List.nodup_range _) (List.mem_range.mpr hb) ?_ ?_
      · simp [Function.comp, ha]
      · intro y _ hcy
        simp only [Function.comp_apply, beq_iff_eq, Queue.mk.injEq] at hcy
        exact hcy.2
    · rw [if_neg (by tauto), List.countP_eq_zero]
      intro qi hqi hc
      simp only [Function.comp_apply, beq_iff_eq, Queue.mk.injEq] at hc
      rw [List.mem_range] at hqi
      omega
  · rw [if_neg (by tauto), List.countP_eq_zero]
    intro qi _ hc
    simp only [Function.comp_apply, beq_iff_eq, Queue.mk.injEq] at hc
    exact ha hc.1.symm

theorem count_unique_sum (f : queue_family_info → Nat) :
    ∀ (l : List queue_family_info) (x : queue_family_info), x ∈ l →
      l.Pairwise (fun g h => g.family_idx ≠ h.family_idx) →
      (∀ y ∈ l, y ≠ x → f y = 0) → (l.map f).sum = f x := by
  intro l
  induction l with
  | nil => intro x hx; cases hx
  | cons h t ih =>
    intro x hx hpw hz
    rcases List.mem_cons.mp hx with rfl | hxt
    · simp only [List.map_cons, List.sum_cons]
      have ht0 : (t.map f).sum = 0 := by
        rw [List.sum_eq_zero]
        intro y hy
        obtain ⟨g, hg, rfl⟩ := List.mem_map.mp hy
        refine hz g (by simp [hg]) ?_
        intro hgx
        subst hgx
        exact (List.pairwise_cons.mp hpw).1 g hg rfl
      rw [ht0]
      omega
    · have hhx : h ≠ x := by
        intro hh
        subst hh
        exact (List.pairwise_cons.mp hpw).1 _ hxt rfl
      simp only [List.map_cons, List.sum_cons]
      rw [hz h (by simp) hhx]
      rw [ih x hxt (List.pairwise_cons.mp hpw).2
        (fun y hy hyx => hz y (by simp [hy]) hyx)]
      omega

/-- C2 (amended): provided the request list's entries carry pairwise
distinct family indices and pairwise distinct capability flags (as the
add-queue API produces), for every non-empty strict subset `S` of the flags
of a requested family, `map[S]` contains every queue of every requested
family whose flags contain `S`, each exactly once; in particular a single
Graphics|Compute|Transfer queue appears as the one-element list of all
seven non-empty flag combinations. -/
theorem C2_subset_map :
    (∀ (list : List queue_family_info),
      list.Pairwise (fun g h => g.family_idx ≠ h.family_idx) →
      list.Pairwise (fun g h => g.flags ≠ h.flags) →
      (∀ fam ∈ list, fam.flags < 2 ^ 32) →
      ∀ S : Nat, S ≠ 0 →
      (∃ fam0 ∈ list, S &&& fam0.flags = S ∧ S ≠ fam0.flags) →
      ∀ fam ∈ list, S &&& fam.flags = S →
      ∀ qi, qi < fam.queues.length →
        (buildQueueMap list S).count ⟨fam.family_idx, qi⟩ = 1)
    ∧ ∀ S ∈ [1, 2, 3, 4, 5, 6, 7],
        buildQueueMap [(⟨0, 7, [⟨1⟩]⟩ : queue_family_info)] S = [⟨0, 0⟩] := by
  constructor
  · intro list hidx hfl hlt S hS _ fam hfam hsub qi hqi
    rw [buildQueueMap_decomp list hfl S, List.count_append]
    have hsym : Symmetric (fun g h : queue_family_info => g.family_idx ≠ h.family_idx) :=
      fun x y hxy => fun e => hxy e.symm
    have hp1 : (pass1 list S).count ⟨fam.family_idx, qi⟩
        = if S = fam.flags then 1 else 0 := by
      rw [pass1_eq]
      by_cases hSf : S = fam.flags
      · rw [if_pos hSf, hSf, filter_flags_singleton list hfl fam hfam]
        simp only [List.map_cons, List.map_nil, List.flatten_cons, List.flatten_nil,
          List.append_nil]
        rw [count_famQueues]
        exact if_pos ⟨rfl, hqi⟩
      · rw [if_neg hSf, List.count_flatten]
        rw [List.sum_eq_zero]
        intro y hy
        rw [List.map_map] at hy
        obtain ⟨g, hg, rfl⟩ := List.mem_map.mp hy
        have hgmem := List.mem_filter.mp hg
        have hgS : g.flags = S := by simpa using hgmem.2
        have hgne : g ≠ fam := by
          intro he
          subst he
          exact hSf hgS.symm
        have hidxne : g.family_idx ≠ fam.family_idx :=
          (List.Pairwise.forall hsym hidx) hgmem.1 hfam hgne
        simp only [Function.comp_apply]
        rw [count_famQueues]
        exact if_neg (fun hc => hidxne hc.1.symm)
    have hp2 : ((list.map (fun g =>
          (List.replicate ((subsetMasks g.flags).count S) (famQueues g)).flatten)).flatten).count
            ⟨fam.family_idx, qi⟩
        = if S = fam.flags then 0 else 1 := by
      rw [List.count_flatten, List.map_map]
      have hterm : ∀ g : queue_family_info,
          (List.count ⟨fam.family_idx, qi⟩ ∘ fun g =>
            (List.replicate ((subsetMasks g.flags).count S) (famQueues g)).flatten) g
          = (subsetMasks g.flags).count S * (famQueues g).count ⟨fam.family_idx, qi⟩ := by
        intro g
        simp only [Function.comp_apply]
        exact count_flatten_replicate _ _ _
      have hzero : ∀ y ∈ list, y ≠ fam →
          (List.count ⟨fam.family_idx, qi⟩ ∘ fun g =>
            (List.replicate ((subsetMasks g.flags).count S) (famQueues g)).flatten) y = 0 := by
        intro y hy hyne
        rw [hterm y, count_famQueues]
        have hidxne : y.family_idx ≠ fam.family_idx :=
          (List.Pairwise.forall hsym hidx) hy hfam hyne
        rw [if_neg (fun hc => hidxne hc.1.symm)]
        ring
      rw [count_unique_sum _ list fam hfam hidx hzero, hterm fam, count_famQueues,
        if_pos ⟨rfl, hqi⟩, count_subsetMasks fam.flags S (hlt fam hfam) hS]
      by_cases hSf : S = fam.flags
      · rw [if_pos hSf, if_neg (fun hc => hc.2 hSf)]
      · rw [if_neg hSf, if_pos ⟨hsub, hSf⟩]
    rw [hp1, hp2]
    by_cases hSf : S = fam.flags <;> simp [hSf]
  · intro S hs
    fin_cases hs <;> decide

/-- C2 counterexample to the claim as stated: two requested families with
identical flags Graphics|Compute = 3.  The second pass fetches the subset
queues through `getQueue(flags, queue_idx)`, which returns the *first*
family's queues for both families, so `map[Graphics]` holds family 0's
queue twice and family 1's queue (whose family flags contain Graphics) not
at all. -/
theorem C2_counterexample :
    buildQueueMap [(⟨0, 3, [⟨1⟩]⟩ : queue_family_info), ⟨1, 3, [⟨1⟩]⟩] 1 = [⟨0, 0⟩, ⟨0, 0⟩]
    ∧ (⟨1, 0⟩ : Queue) ∉ buildQueueMap [(⟨0, 3, [⟨1⟩]⟩ : queue_family_info), ⟨1, 3, [⟨1⟩]⟩] 1
    ∧ (buildQueueMap [(⟨0, 3, [⟨1⟩]⟩ : queue_family_info), ⟨1, 3, [⟨1⟩]⟩] 1).count ⟨0, 0⟩ = 2
    ∧ (1 : Nat) &&& 3 = 1 ∧ (1 : Nat) ≠ 3 ∧ (0 : Nat) < ([⟨1⟩] : List queue_info).length := by
  refine ⟨by decide, by decide, by decide, by decide, by decide, by decide⟩

/-- C2 witness: the amended theorem applied to a Graphics|Compute|Transfer
family and the strict subset Graphics|Compute = 3. -/
theorem C2_subset_map_witness :
    (buildQueueMap [(⟨0, 7, [⟨1⟩]⟩ : queue_family_info)] 3).count ⟨0, 0⟩ = 1 :=
  C2_subset_map.1 [⟨0, 7, [⟨1⟩]⟩] (by simp) (by simp) (by decide) 3 (by decide)
    ⟨⟨0, 7, [⟨1⟩]⟩, by simp, by decide, by decide⟩ ⟨0, 7, [⟨1⟩]⟩ (by simp) (by decide)
    0 (by decide)

end VkWrapper
